import Mathlib

/-!
Verification of the DouPinPin bead-pattern generator core.

The development shallowly embeds the image-quantization pipeline:
  * `src/src/core/color_utils.ts` — sRGB→Lab conversion, CIE76 deltaE,
    hex parsing, palette parsing, nearest-color matching;
  * the `PerlerBeadGenerator.generate` method — background flood fill,
    the four downsampling strategies, and grid assembly.

JavaScript floating-point numbers are modelled by exact arithmetic:
rational numbers (`ℚ`) wherever the source only adds, multiplies, divides
and compares, and real numbers (`ℝ`) where the source takes square roots
or fractional powers (`Math.sqrt`, `Math.pow(·, 2.4)`, cube roots).
Byte values read out of a canvas `ImageData` are modelled as a total
function `ℕ → ℕ` from flat indices to sample values.
-/

namespace DouPinPin

/-- `ColorInfo` from `color_utils.ts`: a palette swatch or a resolved grid
cell.  The optional `isExternal` field (absent = `false` in JS) is modelled
as a `Bool` defaulting to `false`. -/
structure ColorInfo where
  code : String
  rgb : ℚ × ℚ × ℚ
  lab : ℝ × ℝ × ℝ
  isExternal : Bool := false

/-- The six brand names of `color_utils.ts` (`'mard' | '漫漫' | '盼盼' |
'咪小窝' | 'COCO' | '卡卡'`), romanised. -/
inductive PaletteKey where
  | mard | manman | panpan | mixiaowo | coco | kaka
deriving DecidableEq

/-- Gamma expansion of one sRGB channel, as inlined in `rgbToLab`:
`u > 0.04045 ? Math.pow((u + 0.055) / 1.055, 2.4) : u / 12.92`. -/
noncomputable def srgbChannel (u : ℝ) : ℝ :=
  if u > 0.04045 then ((u + 0.055) / 1.055) ^ (2.4 : ℝ) else u / 12.92

/-- The Lab transfer function, as inlined in `rgbToLab`:
`t > 0.008856 ? Math.pow(t, 1/3) : (7.787 * t) + (16 / 116)`. -/
noncomputable def labF (t : ℝ) : ℝ :=
  if t > 0.008856 then t ^ ((1 : ℝ) / 3) else 7.787 * t + 16 / 116

/-- `rgbToLab` from `color_utils.ts`: sRGB → linear RGB → XYZ (D65) →
CIE Lab. -/
noncomputable def rgbToLab (r g b : ℚ) : ℝ × ℝ × ℝ :=
  let r' := srgbChannel ((r : ℝ) / 255)
  let g' := srgbChannel ((g : ℝ) / 255)
  let b' := srgbChannel ((b : ℝ) / 255)
  let x := (r' * 0.4124 + g' * 0.3576 + b' * 0.1805) * 100 / 95.047
  let y := (r' * 0.2126 + g' * 0.7152 + b' * 0.0722) * 100 / 100.000
  let z := (r' * 0.0193 + g' * 0.1192 + b' * 0.9505) * 100 / 108.883
  (116 * labF y - 16, 500 * (labF x - labF y), 200 * (labF y - labF z))

/-- `deltaE` from `color_utils.ts`: Euclidean distance in Lab space. -/
noncomputable def deltaE (lab1 lab2 : ℝ × ℝ × ℝ) : ℝ :=
  Real.sqrt ((lab1.1 - lab2.1) ^ 2 + (lab1.2.1 - lab2.2.1) ^ 2 +
    (lab1.2.2 - lab2.2.2) ^ 2)

/-- The junk value standing for JavaScript `undefined` when
`palette[0]` is read on an empty palette; every theorem below excludes
this case by a nonemptiness hypothesis. -/
def undefinedColor : ColorInfo := { code := "", rgb := (0, 0, 0), lab := (0, 0, 0) }

open Classical in
/-- The scan loop of `findClosestColor`: iterates over the remaining
palette entries carrying the current `closest` entry and the current
`minDistance`.  JavaScript's initial `Infinity` is modelled by
`Option ℝ`: `none` compares greater than every distance. -/
noncomputable def findClosestLoop (lab : ℝ × ℝ × ℝ) :
    List ColorInfo → ColorInfo → Option ℝ → ColorInfo
  | [], closest, _ => closest
  | color :: rest, closest, minD =>
    if (match minD with
        | none => True
        | some m => deltaE lab color.lab < m) then
      findClosestLoop lab rest color (some (deltaE lab color.lab))
    else
      findClosestLoop lab rest closest minD

/-- `findClosestColor` from `color_utils.ts`.  The global `palettes`
record (parsed from `palette_data.ts`, which is not part of the sources)
is passed as a parameter; `palette[0]` is `palette.headD undefinedColor`. -/
noncomputable def findClosestColor (palettes : PaletteKey → List ColorInfo)
    (r g b : ℚ) (key : PaletteKey) : ColorInfo :=
  let lab := rgbToLab r g b
  let palette := palettes key
  findClosestLoop lab palette (palette.headD undefinedColor) none

/-! ### Background segmentation (flood fill from the corners)

`PerlerBeadGenerator.generate` works on a `procW × procH` buffer with
`procW = targetW * 4`, `procH = targetH * 4`.  Pixels are addressed as
`[r, c]` pairs; we model them as `Fin procH × Fin procW`, which carries
exactly the bounds information the source's guarded pushes (`r > 0`,
`r < procH - 1`, …) maintain. -/

/-- The guarded neighbor pushes of the flood fill, in source order
(up, down, left, right):
`if (r > 0) queue.push([r-1,c]); if (r < procH-1) queue.push([r+1,c]);
if (c > 0) queue.push([r,c-1]); if (c < procW-1) queue.push([r,c+1]);`. -/
def neighborPushes {procH procW : ℕ} (p : Fin procH × Fin procW) :
    List (Fin procH × Fin procW) :=
  (if h : 0 < p.1.val then
    [(⟨p.1.val - 1, by have := p.1.isLt; omega⟩, p.2)] else []) ++
  (if h : p.1.val < procH - 1 then
    [(⟨p.1.val + 1, by omega⟩, p.2)] else []) ++
  (if h : 0 < p.2.val then
    [(p.1, ⟨p.2.val - 1, by have := p.2.isLt; omega⟩)] else []) ++
  (if h : p.2.val < procW - 1 then
    [(p.1, ⟨p.2.val + 1, by omega⟩)] else [])

/-- The flood-fill loop of `generate`: the growing `queue` with its
`head` pointer is modelled as the list of not-yet-dequeued entries
(dequeue at the front, `push` appends at the back).  Returns the final
`(visited, mask)` pair; `generate` consumes only the mask component.
Per source: a dequeued pixel already visited is skipped; otherwise it is
marked visited, and iff it is background-colored it is added to the mask
and its guarded neighbors are enqueued. -/
def bfsRun {procH procW : ℕ} (bg : Fin procH × Fin procW → Bool) :
    Finset (Fin procH × Fin procW) → Finset (Fin procH × Fin procW) →
    List (Fin procH × Fin procW) →
    Finset (Fin procH × Fin procW) × Finset (Fin procH × Fin procW)
  | visited, mask, [] => (visited, mask)
  | visited, mask, p :: rest =>
    if hp : p ∈ visited then
      bfsRun bg visited mask rest
    else if hbg : bg p then
      bfsRun bg (insert p visited) (insert p mask) (rest ++ neighborPushes p)
    else
      bfsRun bg (insert p visited) mask rest
termination_by visited _ queue => ((Finset.univ \ visited).card, queue.length)
decreasing_by
  · apply Prod.Lex.right
    simp
  · apply Prod.Lex.left
    apply Finset.card_lt_card
    rw [Finset.ssubset_iff_of_subset
      (Finset.sdiff_subset_sdiff (le_refl _) (Finset.subset_insert p visited))]
    exact ⟨p, Finset.mem_sdiff.mpr ⟨Finset.mem_univ p, hp⟩,
      fun hmem => (Finset.mem_sdiff.mp hmem).2 (Finset.mem_insert_self p visited)⟩
  · apply Prod.Lex.left
    apply Finset.card_lt_card
    rw [Finset.ssubset_iff_of_subset
      (Finset.sdiff_subset_sdiff (le_refl _) (Finset.subset_insert p visited))]
    exact ⟨p, Finset.mem_sdiff.mpr ⟨Finset.mem_univ p, hp⟩,
      fun hmem => (Finset.mem_sdiff.mp hmem).2 (Finset.mem_insert_self p visited)⟩

/-- The four corner seeds, in source push order:
`queue.push([0, 0], [0, procW - 1], [procH - 1, 0], [procH - 1, procW - 1])`. -/
def cornerSeeds {procH procW : ℕ} (hH : 0 < procH) (hW : 0 < procW) :
    List (Fin procH × Fin procW) :=
  [(⟨0, hH⟩, ⟨0, hW⟩), (⟨0, hH⟩, ⟨procW - 1, by omega⟩),
   (⟨procH - 1, by omega⟩, ⟨0, hW⟩), (⟨procH - 1, by omega⟩, ⟨procW - 1, by omega⟩)]

/-- `distToWhite` of the source's `isBgColor` closure:
`Math.sqrt((255-r)² + (255-g)² + (255-b)²)` where `r,g,b` are the bytes
at `idx`, `idx+1`, `idx+2` of the processing buffer. -/
noncomputable def distToWhite (procData : ℕ → ℕ) (idx : ℕ) : ℝ :=
  Real.sqrt ((255 - (procData idx : ℝ)) ^ 2 + (255 - (procData (idx + 1) : ℝ)) ^ 2 +
    (255 - (procData (idx + 2) : ℝ)) ^ 2)

/-- The background-color test of `generate`:
`distToWhite < backgroundTolerance * 2`. -/
def isBgColor (procData : ℕ → ℕ) (tol : ℚ) (idx : ℕ) : Prop :=
  distToWhite procData idx < (tol : ℝ) * 2

open Classical in
/-- The background-color test as a boolean on grid cells; the source
calls `isBgColor(idx * 4)` with `idx = r * procW + c`. -/
noncomputable def bgCell (procData : ℕ → ℕ) (tol : ℚ) {procH procW : ℕ}
    (p : Fin procH × Fin procW) : Bool :=
  decide (isBgColor procData tol ((p.1.val * procW + p.2.val) * 4))

/-- `isBackgroundMask` of `generate` when `removeBackground` is
requested: the mask computed by the flood fill seeded at the four
corners (as a set of cells).  For a degenerate empty buffer the mask is
empty, matching the source where the loop masks nothing. -/
noncomputable def backgroundMask (procData : ℕ → ℕ) (tol : ℚ)
    (targetW targetH : ℕ) : Finset (Fin (targetH * 4) × Fin (targetW * 4)) :=
  if h : 0 < targetH * 4 ∧ 0 < targetW * 4 then
    (bfsRun (bgCell procData tol) ∅ ∅ (cornerSeeds h.1 h.2)).2
  else ∅

/-- Cells masked by the flood fill, characterized inductively: a corner
that is background-colored is masked, and a guarded neighbor of a masked
cell that is background-colored is masked. -/
inductive BgReach {procH procW : ℕ} (bg : Fin procH × Fin procW → Bool)
    (corners : List (Fin procH × Fin procW)) : Fin procH × Fin procW → Prop where
  | corner : ∀ p, p ∈ corners → bg p = true → BgReach bg corners p
  | step : ∀ p q, BgReach bg corners q → p ∈ neighborPushes q → bg p = true →
      BgReach bg corners p

/-- 4-connectedness of two buffer cells: same row and adjacent columns,
or same column and adjacent rows. -/
def adjacentCells {procH procW : ℕ} (p q : Fin procH × Fin procW) : Prop :=
  (p.1 = q.1 ∧ (p.2.val + 1 = q.2.val ∨ q.2.val + 1 = p.2.val)) ∨
  (p.2 = q.2 ∧ (p.1.val + 1 = q.1.val ∨ q.1.val + 1 = p.1.val))

/-- The claim's reachability notion: a 4-connected path that starts at
one of the corner seeds, ends at `p`, and consists entirely of
background-colored cells. -/
def BgPath {procH procW : ℕ} (bg : Fin procH × Fin procW → Bool)
    (corners : List (Fin procH × Fin procW)) (p : Fin procH × Fin procW) : Prop :=
  ∃ path : List (Fin procH × Fin procW), path.Chain' adjacentCells ∧
    (∃ c ∈ corners, path.head? = some c) ∧ path.getLast? = some p ∧
    ∀ q ∈ path, bg q = true

/-! ### The quantization engine of `PerlerBeadGenerator.generate`

The geometric preprocessing (center crop and canvas resampling, lines
17–47 of the generator) happens inside the excluded canvas API; its
output is the processing buffer `procData`, which we take as the input
of the embedding (a total function from flat byte index to sample
value). -/

/-- `type Algorithm = 'average' | 'nearest' | 'gradient_enhanced' |
'dominant_pooling'`. -/
inductive Algorithm where
  | average | nearest | gradientEnhanced | dominantPooling
deriving DecidableEq

/-- The arguments of `PerlerBeadGenerator.generate` from the processing
buffer onward.  `paletteOf` is the global palette record consulted by
`findClosestColor`. -/
structure GenArgs where
  procData : ℕ → ℕ
  targetW : ℕ
  targetH : ℕ
  paletteOf : PaletteKey → List ColorInfo
  paletteKey : PaletteKey
  brightness : ℚ
  removeBackground : Bool
  backgroundTolerance : ℚ

/-- `procW = targetW * 4`. -/
def GenArgs.procW (A : GenArgs) : ℕ := A.targetW * 4

/-- `procH = targetH * 4`. -/
def GenArgs.procH (A : GenArgs) : ℕ := A.targetH * 4

/-- `bOffset = brightness * 15`. -/
def GenArgs.bOffset (A : GenArgs) : ℚ := A.brightness * 15

/-- `blockW = procW / targetW` (JS float division; exact here). -/
def GenArgs.blockW (A : GenArgs) : ℚ := (A.procW : ℚ) / (A.targetW : ℚ)

/-- `blockH = procH / targetH`. -/
def GenArgs.blockH (A : GenArgs) : ℚ := (A.procH : ℚ) / (A.targetH : ℚ)

open Classical in
/-- `isBackgroundMask[y * procW + x]` as a boolean: filled by the corner
flood fill when `removeBackground` is set, all-zero otherwise. -/
noncomputable def GenArgs.maskBit (A : GenArgs) (y x : ℕ) : Bool :=
  if A.removeBackground then
    decide (∃ (hy : y < A.targetH * 4) (hx : x < A.targetW * 4),
      (⟨y, hy⟩, ⟨x, hx⟩) ∈
        backgroundMask A.procData A.backgroundTolerance A.targetW A.targetH)
  else false

/-- One brightness-adjusted, clamped channel read:
`Math.min(255, Math.max(0, procData[idx] + bOffset))`. -/
def GenArgs.adj (A : GenArgs) (idx : ℕ) : ℚ :=
  min 255 (max 0 ((A.procData idx : ℚ) + A.bOffset))

/-- The `nearest` strategy for target cell `(r, c)`: sample the single
pixel at the geometric center of the block, match it, and flag the cell
background iff the center pixel is masked. -/
noncomputable def nearestCell (A : GenArgs) (r c : ℕ) : ColorInfo :=
  let pr := (⌊(r : ℚ) * A.blockH + A.blockH / 2⌋).toNat
  let pc := (⌊(c : ℚ) * A.blockW + A.blockW / 2⌋).toNat
  let idx := (pr * A.procW + pc) * 4
  let rVal := A.adj idx
  let gVal := A.adj (idx + 1)
  let bVal := A.adj (idx + 2)
  let color := findClosestColor A.paletteOf rVal gVal bVal A.paletteKey
  if A.removeBackground && A.maskBit pr pc then
    { color with isExternal := true }
  else color

/-- The pixel coordinates `(y, x)` of the sampling block of target cell
`(r, c)`, in loop order (`y` outer, `x` inner):
`startY = Math.floor(r * blockH)`,
`endY = Math.min(Math.floor((r + 1) * blockH), procH)`, and similarly
for `x`. -/
def blockPixels (A : GenArgs) (r c : ℕ) : List (ℕ × ℕ) :=
  let startY := (⌊(r : ℚ) * A.blockH⌋).toNat
  let endY := min (⌊((r : ℚ) + 1) * A.blockH⌋).toNat A.procH
  let startX := (⌊(c : ℚ) * A.blockW⌋).toNat
  let endX := min (⌊((c : ℚ) + 1) * A.blockW⌋).toNat A.procW
  (List.range' startY (endY - startY)).bind
    (fun y => (List.range' startX (endX - startX)).map (fun x => (y, x)))

/-- A pre-matching cell of the `average` pass (`rawGrid` entries):
RGB value plus background flag. -/
structure RawCell where
  r : ℚ
  g : ℚ
  b : ℚ
  isBg : Bool

/-- One `rawGrid` cell of the `average`/`gradient_enhanced` first pass:
per-channel sums of brightness-adjusted clamped samples over the block,
divided by the pixel count (with the `count === 0 → 1` guard), and the
background flag `removeBackground && bgCount / count > 0.5`. -/
noncomputable def averageRawCell (A : GenArgs) (r c : ℕ) : RawCell :=
  let px := blockPixels A r c
  let count := px.length
  let sumR := (px.map (fun p => A.adj ((p.1 * A.procW + p.2) * 4))).sum
  let sumG := (px.map (fun p => A.adj ((p.1 * A.procW + p.2) * 4 + 1))).sum
  let sumB := (px.map (fun p => A.adj ((p.1 * A.procW + p.2) * 4 + 2))).sum
  let bgCount := (px.filter (fun p => A.removeBackground && A.maskBit p.1 p.2)).length
  let count' := if count = 0 then 1 else count
  { r := sumR / (count' : ℚ), g := sumG / (count' : ℚ), b := sumB / (count' : ℚ),
    isBg := A.removeBackground && decide ((bgCount : ℚ) / (count' : ℚ) > 0.5) }

/-- Resolution of a raw cell through the palette matcher, setting
`isExternal` when the raw cell is flagged background:
`const info = {...color}; if (raw.isBg) info.isExternal = true`. -/
noncomputable def resolveRawCell (A : GenArgs) (raw : RawCell) : ColorInfo :=
  let color := findClosestColor A.paletteOf raw.r raw.g raw.b A.paletteKey
  if raw.isBg then { color with isExternal := true } else color

/-- The `average` strategy for target cell `(r, c)`. -/
noncomputable def averageCell (A : GenArgs) (r c : ℕ) : ColorInfo :=
  resolveRawCell A (averageRawCell A r c)

/-- The neighbor direction list of the gradient pass:
`[[-1, 0], [1, 0], [0, -1], [0, 1]]`. -/
def dirs : List (ℤ × ℤ) := [(-1, 0), (1, 0), (0, -1), (0, 1)]

/-- The existing (in-bounds) 4-connected neighbors of cell `(r, c)` in
the `rawGrid`, in direction order. -/
noncomputable def existingNeighbors (A : GenArgs) (r c : ℕ) : List RawCell :=
  dirs.filterMap (fun d =>
    if 0 ≤ (r : ℤ) + d.1 ∧ (r : ℤ) + d.1 < (A.targetH : ℤ) ∧
       0 ≤ (c : ℤ) + d.2 ∧ (c : ℤ) + d.2 < (A.targetW : ℤ) then
      some (averageRawCell A ((r : ℤ) + d.1).toNat ((c : ℤ) + d.2).toNat)
    else none)

/-- One `enhancedGrid` cell of the `gradient_enhanced` second pass: if
the average per-neighbor sum of absolute channel differences is below
15 the average cell is kept, otherwise the unsharp correction
`2·center − 0.1·Σneighbors − 0.1·missingEdges·center` is applied per
channel and clamped to `[0, 255]`; the background flag is `center.isBg`
in both branches. -/
noncomputable def enhancedRawCell (A : GenArgs) (r c : ℕ) : RawCell :=
  let center := averageRawCell A r c
  let nbrs := existingNeighbors A r c
  let diffSum := (nbrs.map (fun n =>
    |center.r - n.r| + |center.g - n.g| + |center.b - n.b|)).sum
  let neighbors := nbrs.length
  let avgDiff := if 0 < neighbors then diffSum / (neighbors : ℚ) else 0
  if avgDiff < 15 then center
  else
    let weightCenter : ℚ := 2
    let weightEdge : ℚ := -0.1
    let sumR := center.r * weightCenter + (nbrs.map (fun n => n.r * weightEdge)).sum
    let sumG := center.g * weightCenter + (nbrs.map (fun n => n.g * weightEdge)).sum
    let sumB := center.b * weightCenter + (nbrs.map (fun n => n.b * weightEdge)).sum
    let validNeighbors := nbrs.length
    let missingEdges : ℚ := 4 - (validNeighbors : ℚ)
    { r := min 255 (max 0 (sumR + center.r * (missingEdges * weightEdge))),
      g := min 255 (max 0 (sumG + center.g * (missingEdges * weightEdge))),
      b := min 255 (max 0 (sumB + center.b * (missingEdges * weightEdge))),
      isBg := center.isBg }

/-- The `gradient_enhanced` strategy for target cell `(r, c)`. -/
noncomputable def enhancedCell (A : GenArgs) (r c : ℕ) : ColorInfo :=
  resolveRawCell A (enhancedRawCell A r c)

/-- `Math.round` for the nonnegative values produced by clamping:
`⌊x + 1/2⌋`. -/
def jsRound (x : ℚ) : ℤ := ⌊x + 1 / 2⌋

/-- One bucket update of the `dominant_pooling` frequency map: a missing
key is appended (JS `Map` preserves insertion order) with the current
pixel's RGB; an existing key keeps its stored RGB; either way the
bucket's count is incremented. -/
def bumpBucket (key : ℤ × ℤ × ℤ) (val : ℚ × ℚ × ℚ) :
    List ((ℤ × ℤ × ℤ) × (ℚ × ℚ × ℚ) × ℕ) →
    List ((ℤ × ℤ × ℤ) × (ℚ × ℚ × ℚ) × ℕ)
  | [] => [(key, val, 1)]
  | e :: rest =>
    if e.1 = key then (e.1, e.2.1, e.2.2 + 1) :: rest
    else e :: bumpBucket key val rest

/-- The per-pixel body of the `dominant_pooling` block loop, acting on
the accumulator `(colorFreq, bgCount, totalCount)`.  A pixel with alpha
`< 10` counts as background and is excluded from buckets; an opaque
masked pixel (when `removeBackground`) bumps `bgCount`; bucket keys are
the channel values rounded to the nearest multiple of 10. -/
noncomputable def dominantStep (A : GenArgs)
    (acc : List ((ℤ × ℤ × ℤ) × (ℚ × ℚ × ℚ) × ℕ) × ℕ × ℕ) (p : ℕ × ℕ) :
    List ((ℤ × ℤ × ℤ) × (ℚ × ℚ × ℚ) × ℕ) × ℕ × ℕ :=
  let idx := (p.1 * A.procW + p.2) * 4
  let alpha := A.procData (idx + 3)
  if alpha < 10 then (acc.1, acc.2.1 + 1, acc.2.2 + 1)
  else
    let bgCount := if A.removeBackground && A.maskBit p.1 p.2 then
      acc.2.1 + 1 else acc.2.1
    let rv := A.adj idx
    let gv := A.adj (idx + 1)
    let bv := A.adj (idx + 2)
    let key := (jsRound (rv / 10) * 10, jsRound (gv / 10) * 10,
      jsRound (bv / 10) * 10)
    (bumpBucket key (rv, gv, bv) acc.1, bgCount, acc.2.2 + 1)

/-- The block scan of `dominant_pooling`: walks the block pixels in loop
order accumulating `(colorFreq, bgCount, totalCount)`. -/
noncomputable def dominantScan (A : GenArgs) (r c : ℕ) :
    List ((ℤ × ℤ × ℤ) × (ℚ × ℚ × ℚ) × ℕ) × ℕ × ℕ :=
  (blockPixels A r c).foldl (dominantStep A) ([], 0, 0)

/-- The representative selection of `dominant_pooling`: starting from
`dominant = white, maxCount = -1`, scan the buckets in insertion order
and take the first bucket with strictly larger count. -/
def pickDominant (freq : List ((ℤ × ℤ × ℤ) × (ℚ × ℚ × ℚ) × ℕ)) : ℚ × ℚ × ℚ :=
  (freq.foldl (fun (acc : (ℚ × ℚ × ℚ) × ℤ) e =>
    if (e.2.2 : ℤ) > acc.2 then (e.2.1, (e.2.2 : ℤ)) else acc)
    ((255, 255, 255), -1)).1

/-- The `dominant_pooling` strategy for target cell `(r, c)`; the cell
is flagged background iff `removeBackground && bgCount / totalCount >
0.5`. -/
noncomputable def dominantCell (A : GenArgs) (r c : ℕ) : ColorInfo :=
  let scan := dominantScan A r c
  let dm := pickDominant scan.1
  let color := findClosestColor A.paletteOf dm.1 dm.2.1 dm.2.2 A.paletteKey
  if A.removeBackground && decide ((scan.2.1 : ℚ) / (scan.2.2 : ℚ) > 0.5) then
    { color with isExternal := true }
  else color

/-- The grid produced by `PerlerBeadGenerator.generate`: `targetH` rows
of `targetW` cells, each computed by the selected strategy.  (The data
URL also returned by `generate` is produced by the excluded renderer.) -/
noncomputable def generateGrid (A : GenArgs) (alg : Algorithm) :
    List (List ColorInfo) :=
  (List.range A.targetH).map (fun r => (List.range A.targetW).map (fun c =>
    match alg with
    | .nearest => nearestCell A r c
    | .dominantPooling => dominantCell A r c
    | .average => averageCell A r c
    | .gradientEnhanced => enhancedCell A r c))

/-- The caller-side clamping of `App.tsx`'s `handleGenerate`:
`Math.min(Math.max(1, v), 120)`. -/
def clampDim (v : ℤ) : ℤ := min (max 1 v) 120

/-! ### Region merging (modelled from the spec)

`PerlerBeadGenerator.mergeRegion` and `PerlerBeadGenerator.autoMerge`
are called from `App.tsx` but their implementation file is not among the
sources; the definitions below are modelled from spec §4.7. -/

/-- `grid[r][c]` as an option. -/
def gridCell? (g : List (List ColorInfo)) (r c : ℕ) : Option ColorInfo :=
  match g.get? r with
  | some row => row.get? c
  | none => none

/-- 4-connectedness of two grid coordinates. -/
def coordAdj (r c r' c' : ℕ) : Prop :=
  (r = r' ∧ (c + 1 = c' ∨ c' + 1 = c)) ∨ (c = c' ∧ (r + 1 = r' ∨ r' + 1 = r))

/-- Modelled from the spec: the region merged by `mergeRegion` (whose
implementation is not among the sources) — the cells reachable from the
clicked cell by BFS over 4-connected neighbors, where a cell
participates only if it is not background-flagged and its color's
`deltaE` to the seed's current color is below the threshold
(spec §4.7: background cells are excluded from expansion and from being
chosen as seeds). -/
inductive MergeReach (g : List (List ColorInfo)) (sr sc : ℕ) (t : ℝ) :
    ℕ → ℕ → Prop where
  | seed : ∀ seed, gridCell? g sr sc = some seed → seed.isExternal = false →
      deltaE seed.lab seed.lab < t → MergeReach g sr sc t sr sc
  | step : ∀ r c r' c' seed cell, MergeReach g sr sc t r c →
      coordAdj r c r' c' → gridCell? g sr sc = some seed →
      gridCell? g r' c' = some cell → cell.isExternal = false →
      deltaE cell.lab seed.lab < t → MergeReach g sr sc t r' c'

open Classical in
/-- Modelled from the spec: `mergeRegion(grid, seedRow, seedCol,
threshold)` — rewrite every cell of the merged region to the seed's
current color (`code`/`rgb`/`lab`; spec §3: merging only rewrites those
fields of existing cells), leaving all other cells untouched. -/
noncomputable def mergeRegion (g : List (List ColorInfo)) (sr sc : ℕ)
    (t : ℝ) : List (List ColorInfo) :=
  g.mapIdx (fun r row => row.mapIdx (fun c cell =>
    if MergeReach g sr sc t r c then
      match gridCell? g sr sc with
      | some seed => { cell with code := seed.code, rgb := seed.rgb, lab := seed.lab }
      | none => cell
    else cell))

/-- Modelled from the spec: `autoMerge(grid, threshold)` — repeat the
seeded merge over every cell in row-major scan order. -/
noncomputable def autoMerge (g : List (List ColorInfo)) (t : ℝ) :
    List (List ColorInfo) :=
  ((List.range g.length).bind (fun r =>
    (List.range ((g.headD []).length)).map (fun c => (r, c)))).foldl
    (fun acc p => mergeRegion acc p.1 p.2 t) g

/-! ### Palette parsing (`hexToRgb` / `parsePalettes`) -/

/-- JavaScript `String.prototype.trim`: strip leading and trailing
whitespace. -/
def jsTrim (s : String) : String :=
  ⟨((s.toList.dropWhile Char.isWhitespace).reverse.dropWhile
    Char.isWhitespace).reverse⟩

/-- JavaScript `hex.startsWith('#')`. -/
def jsStartsWithHash (s : String) : Bool :=
  match s.toList with
  | c :: _ => c = '#'
  | [] => false

/-- A character matched by the regex class `[a-f\d]` with the `i`
flag. -/
def isHexDigit (ch : Char) : Bool :=
  (decide ('0' ≤ ch) && decide (ch ≤ '9')) ||
  (decide ('a' ≤ ch) && decide (ch ≤ 'f')) ||
  (decide ('A' ≤ ch) && decide (ch ≤ 'F'))

/-- The numeric value of one hex digit (as consumed by
`parseInt(_, 16)`). -/
def hexDigitVal (ch : Char) : ℕ :=
  if '0' ≤ ch ∧ ch ≤ '9' then ch.toNat - '0'.toNat
  else if 'a' ≤ ch ∧ ch ≤ 'f' then ch.toNat - 'a'.toNat + 10
  else ch.toNat - 'A'.toNat + 10

/-- `parseInt` of a two-hex-digit group. -/
def hexPair (c1 c2 : Char) : ℕ := hexDigitVal c1 * 16 + hexDigitVal c2

/-- `hexToRgb` from `color_utils.ts`: match
`/^#?([a-f\d]{2})([a-f\d]{2})([a-f\d]{2})$/i` and parse the three
groups; on no match return `[0, 0, 0]`. -/
def hexToRgb (hex : String) : ℕ × ℕ × ℕ :=
  let s := if jsStartsWithHash hex then hex.drop 1 else hex
  match s.toList with
  | [c1, c2, c3, c4, c5, c6] =>
    if [c1, c2, c3, c4, c5, c6].all isHexDigit then
      (hexPair c1 c2, hexPair c3 c4, hexPair c5 c6)
    else (0, 0, 0)
  | _ => (0, 0, 0)

/-- The entry contributed by a row whose hex failed to parse: black
rgb with the Lab value of black. -/
noncomputable def blackEntry (code : String) : ColorInfo :=
  { code := code, rgb := (0, 0, 0), lab := rgbToLab 0 0 0 }

/-- One row–brand step of `parsePalettes`: `parts` are the comma-split
fields of a data row.  The row is skipped (for every brand) unless its
trimmed hex field starts with `#` and has length exactly 7; a brand
whose column holds an absent or empty (after trim) code receives no
entry; otherwise the brand receives `{code, rgb, lab}` with
`rgb = hexToRgb hex` and `lab = rgbToLab rgb`. -/
noncomputable def parseRow (parts : List String) (brandIdx : ℕ) :
    Option ColorInfo :=
  let hex := jsTrim (parts.headD "")
  if jsStartsWithHash hex ∧ hex.length = 7 then
    let rgb := hexToRgb hex
    let lab := rgbToLab rgb.1 rgb.2.1 rgb.2.2
    match (parts.get? brandIdx).map jsTrim with
    | some code =>
      if code ≠ "" then
        some { code := code, rgb := ((rgb.1 : ℚ), (rgb.2.1 : ℚ), (rgb.2.2 : ℚ)),
               lab := lab }
      else none
    | none => none
  else none

/-- A small concrete two-entry palette record used to witness the
hypotheses of the theorems below. -/
def demoPalettes : PaletteKey → List ColorInfo := fun _ =>
  [{ code := "A1", rgb := (0, 0, 0), lab := (0, 0, 0) },
   { code := "B2", rgb := (255, 0, 0), lab := (53.2, 80.1, 67.2) }]

/-- A uniformly colored, fully opaque processing buffer: every pixel is
`(ur, ug, ub, 255)`. -/
def uniformData (ur ug ub : ℕ) : ℕ → ℕ := fun idx =>
  if idx % 4 = 0 then ur
  else if idx % 4 = 1 then ug
  else if idx % 4 = 2 then ub
  else 255

/-- Concrete generation arguments with target dimensions 121×121 —
outside `[1, 120]` — exercising the absence of clamping in the core. -/
def bigArgs : GenArgs :=
  { procData := fun _ => 0, targetW := 121, targetH := 121,
    paletteOf := demoPalettes, paletteKey := PaletteKey.mard,
    brightness := 0, removeBackground := false, backgroundTolerance := 30 }

/-- Concrete generation arguments whose buffer is fully transparent
(every byte 0, so every alpha is 0 < 10). -/
def transparentArgs : GenArgs :=
  { procData := fun _ => 0, targetW := 1, targetH := 1,
    paletteOf := demoPalettes, paletteKey := PaletteKey.mard,
    brightness := 0, removeBackground := false, backgroundTolerance := 30 }

/-- Concrete generation arguments with a uniform opaque 10×10 input. -/
def uniformArgs : GenArgs :=
  { procData := uniformData 10 20 30, targetW := 10, targetH := 10,
    paletteOf := demoPalettes, paletteKey := PaletteKey.mard,
    brightness := 0, removeBackground := false, backgroundTolerance := 30 }

/-- `deltaE` is nonnegative (it is a square root). -/
theorem deltaE_nonneg (lab1 lab2 : ℝ × ℝ × ℝ) : 0 ≤ deltaE lab1 lab2 :=
  Real.sqrt_nonneg _

/-- `deltaE x x = 0`. -/
theorem deltaE_self (lab : ℝ × ℝ × ℝ) : deltaE lab lab = 0 := by
  simp [deltaE]

/-- What the scan loop computes when it has already seen at least one
entry (so `minDistance = deltaE lab closest.lab`): the result is the
first entry of `closest :: l` attaining the minimum distance — it is a
member, no entry is strictly closer, and every entry strictly before it
is strictly farther. -/
theorem findClosestLoop_some_spec (lab : ℝ × ℝ × ℝ) (l : List ColorInfo)
    (closest : ColorInfo) :
    ∃ i : ℕ, ∃ hi : i < (closest :: l).length,
      (closest :: l).get ⟨i, hi⟩ =
        findClosestLoop lab l closest (some (deltaE lab closest.lab)) ∧
      (∀ c ∈ closest :: l,
        deltaE lab (findClosestLoop lab l closest
          (some (deltaE lab closest.lab))).lab ≤ deltaE lab c.lab) ∧
      (∀ j : ℕ, ∀ hj : j < i,
        deltaE lab (findClosestLoop lab l closest
            (some (deltaE lab closest.lab))).lab <
          deltaE lab ((closest :: l).get
            ⟨j, lt_trans hj hi⟩).lab) := by
  induction l generalizing closest with
  | nil =>
    refine ⟨0, by simp, ?_, ?_, ?_⟩
    · simp [findClosestLoop]
    · intro c hc
      simp only [List.mem_singleton] at hc
      subst hc
      simp [findClosestLoop]
    · intro j hj
      omega
  | cons c rest ih =>
    by_cases h : deltaE lab c.lab < deltaE lab closest.lab
    · have hstep : findClosestLoop lab (c :: rest) closest
          (some (deltaE lab closest.lab)) =
          findClosestLoop lab rest c (some (deltaE lab c.lab)) := by
        simp [findClosestLoop, h]
      obtain ⟨i, hi, hget, hmin, hfirst⟩ := ih c
      refine ⟨i + 1, by simpa using Nat.succ_lt_succ hi, ?_, ?_, ?_⟩
      · simpa [hstep] using hget
      · intro x hx
        rw [hstep]
        rcases List.mem_cons.mp hx with hx | hx
        · subst hx
          exact le_trans (le_of_lt (lt_of_le_of_lt (hmin c (by simp)) h))
            le_rfl
        · exact hmin x hx
      · intro j hj
        rw [hstep]
        match j with
        | 0 =>
          simp only [List.get]
          exact lt_of_le_of_lt (hmin c (by simp)) h
        | j + 1 =>
          have hj' : j < i := Nat.lt_of_succ_lt_succ hj
          simpa using hfirst j hj'
    · have hstep : findClosestLoop lab (c :: rest) closest
          (some (deltaE lab closest.lab)) =
          findClosestLoop lab rest closest (some (deltaE lab closest.lab)) := by
        simp [findClosestLoop, h]
      obtain ⟨i, hi, hget, hmin, hfirst⟩ := ih closest
      have hclosest_le : deltaE lab (findClosestLoop lab rest closest
          (some (deltaE lab closest.lab))).lab ≤ deltaE lab closest.lab :=
        hmin closest (by simp)
      match i, hi with
      | 0, hi =>
        refine ⟨0, by simp, ?_, ?_, ?_⟩
        · simpa [hstep] using hget
        · intro x hx
          rw [hstep]
          rcases List.mem_cons.mp hx with hx | hx
          · subst hx; exact hmin x (by simp)
          · rcases List.mem_cons.mp hx with hx | hx
            · subst hx
              exact le_trans hclosest_le (not_lt.mp h)
            · exact hmin x (by simp [hx])
        · intro j hj; omega
      | i + 1, hi =>
        refine ⟨i + 2, by simpa using Nat.succ_lt_succ hi, ?_, ?_, ?_⟩
        · simpa [hstep] using hget
        · intro x hx
          rw [hstep]
          rcases List.mem_cons.mp hx with hx | hx
          · subst hx; exact hmin x (by simp)
          · rcases List.mem_cons.mp hx with hx | hx
            · subst hx
              exact le_trans hclosest_le (not_lt.mp h)
            · exact hmin x (by simp [hx])
        · intro j hj
          rw [hstep]
          match j with
          | 0 =>
            have h0 := hfirst 0 (Nat.succ_pos i)
            simpa [hstep] using h0
          | 1 =>
            have h0 := hfirst 0 (Nat.succ_pos i)
            simp only [List.get] at h0 ⊢
            calc deltaE lab (findClosestLoop lab rest closest
                  (some (deltaE lab closest.lab))).lab
                < deltaE lab closest.lab := by simpa [hstep] using h0
              _ ≤ deltaE lab c.lab := not_lt.mp h
          | j + 2 =>
            have hj' : j + 1 < i + 1 := by omega
            have := hfirst (j + 1) hj'
            simpa [hstep] using this

/-- Unfolding the first iteration: with `minDistance = Infinity` the
comparison always succeeds, so the loop over `p :: rest` starting from
initial `closest = p` becomes the `some` loop. -/
theorem findClosestLoop_none_cons (lab : ℝ × ℝ × ℝ) (p : ColorInfo)
    (rest : List ColorInfo) (closest : ColorInfo) :
    findClosestLoop lab (p :: rest) closest none =
      findClosestLoop lab rest p (some (deltaE lab p.lab)) := by
  simp [findClosestLoop]

/-- List-level form of the nearest-color property: the whole scan,
started as `findClosestColor` starts it (`closest = palette[0]`,
`minDistance = Infinity`), returns the first entry of the palette
attaining the minimum distance. -/
theorem findClosestList_spec (lab : ℝ × ℝ × ℝ) (palette : List ColorInfo)
    (h : palette ≠ []) :
    findClosestLoop lab palette (palette.headD undefinedColor) none ∈ palette ∧
    (∀ c ∈ palette,
      ¬ deltaE lab c.lab <
        deltaE lab (findClosestLoop lab palette
          (palette.headD undefinedColor) none).lab) ∧
    ∃ i : ℕ, ∃ hi : i < palette.length,
      palette.get ⟨i, hi⟩ =
        findClosestLoop lab palette (palette.headD undefinedColor) none ∧
      ∀ j : ℕ, ∀ hj : j < i,
        deltaE lab (findClosestLoop lab palette
            (palette.headD undefinedColor) none).lab <
          deltaE lab (palette.get ⟨j, lt_trans hj hi⟩).lab := by
  cases palette with
  | nil => exact absurd rfl h
  | cons p rest =>
    have hunfold : findClosestLoop lab (p :: rest)
        ((p :: rest).headD undefinedColor) none =
        findClosestLoop lab rest p (some (deltaE lab p.lab)) := by
      simp [findClosestLoop_none_cons]
    obtain ⟨i, hi, hget, hmin, hfirst⟩ := findClosestLoop_some_spec lab rest p
    refine ⟨?_, ?_, ?_⟩
    · rw [hunfold, ← hget]
      exact List.get_mem _ _ _
    · intro c hc
      rw [hunfold]
      exact not_lt.mpr (hmin c hc)
    · refine ⟨i, hi, ?_, ?_⟩
      · rw [hunfold, hget]
      · intro j hj
        rw [hunfold]
        exact hfirst j hj

/-- C1: for every RGB triple and every palette key whose palette is
nonempty, `findClosestColor` returns an entry of that palette, no entry
of the palette is strictly closer (in `deltaE` to `rgbToLab r g b`) than
the returned entry, and the returned entry is the first of the palette
attaining the minimum distance (every strictly earlier entry is strictly
farther). -/
theorem findClosestColor_spec (palettes : PaletteKey → List ColorInfo)
    (key : PaletteKey) (r g b : ℚ) (h : palettes key ≠ []) :
    findClosestColor palettes r g b key ∈ palettes key ∧
    (∀ c ∈ palettes key,
      ¬ deltaE (rgbToLab r g b) c.lab <
        deltaE (rgbToLab r g b) (findClosestColor palettes r g b key).lab) ∧
    ∃ i : ℕ, ∃ hi : i < (palettes key).length,
      (palettes key).get ⟨i, hi⟩ = findClosestColor palettes r g b key ∧
      ∀ j : ℕ, ∀ hj : j < i,
        deltaE (rgbToLab r g b) (findClosestColor palettes r g b key).lab <
          deltaE (rgbToLab r g b) ((palettes key).get ⟨j, lt_trans hj hi⟩).lab := by
  have := findClosestList_spec (rgbToLab r g b) (palettes key) h
  simpa only [findClosestColor] using this

/-- Witness for `findClosestColor_spec` at a concrete palette and input. -/
theorem findClosestColor_spec_witness :
    demoPalettes PaletteKey.mard ≠ [] ∧
    (findClosestColor demoPalettes 10 20 30 PaletteKey.mard ∈
        demoPalettes PaletteKey.mard ∧
      (∀ c ∈ demoPalettes PaletteKey.mard,
        ¬ deltaE (rgbToLab 10 20 30) c.lab <
          deltaE (rgbToLab 10 20 30)
            (findClosestColor demoPalettes 10 20 30 PaletteKey.mard).lab) ∧
      ∃ i : ℕ, ∃ hi : i < (demoPalettes PaletteKey.mard).length,
        (demoPalettes PaletteKey.mard).get ⟨i, hi⟩ =
          findClosestColor demoPalettes 10 20 30 PaletteKey.mard ∧
        ∀ j : ℕ, ∀ hj : j < i,
          deltaE (rgbToLab 10 20 30)
              (findClosestColor demoPalettes 10 20 30 PaletteKey.mard).lab <
            deltaE (rgbToLab 10 20 30)
              ((demoPalettes PaletteKey.mard).get ⟨j, lt_trans hj hi⟩).lab) :=
  ⟨by simp [demoPalettes],
   findClosestColor_spec demoPalettes PaletteKey.mard 10 20 30
     (by simp [demoPalettes])⟩

/-! ### Flood-fill correctness -/

/-- The mask only grows during the flood fill. -/
theorem bfsRun_mask_subset {procH procW : ℕ} (bg : Fin procH × Fin procW → Bool)
    (visited mask : Finset (Fin procH × Fin procW))
    (queue : List (Fin procH × Fin procW)) :
    mask ⊆ (bfsRun bg visited mask queue).2 := by
  induction visited, mask, queue using bfsRun.induct bg with
  | case1 visited mask => simp [bfsRun]
  | case2 visited mask p rest hp ih =>
    rw [bfsRun]; simp only [dif_pos hp]; exact ih
  | case3 visited mask p rest hp hbg ih =>
    rw [bfsRun]; simp only [dif_neg hp, dif_pos hbg]
    exact subset_trans (Finset.subset_insert p mask) ih
  | case4 visited mask p rest hp hbg ih =>
    rw [bfsRun]; simp only [dif_neg hp, dif_neg hbg]; exact ih

/-- The visited set only grows during the flood fill. -/
theorem bfsRun_visited_subset {procH procW : ℕ} (bg : Fin procH × Fin procW → Bool)
    (visited mask : Finset (Fin procH × Fin procW))
    (queue : List (Fin procH × Fin procW)) :
    visited ⊆ (bfsRun bg visited mask queue).1 := by
  induction visited, mask, queue using bfsRun.induct bg with
  | case1 visited mask => simp [bfsRun]
  | case2 visited mask p rest hp ih =>
    rw [bfsRun]; simp only [dif_pos hp]; exact ih
  | case3 visited mask p rest hp hbg ih =>
    rw [bfsRun]; simp only [dif_neg hp, dif_pos hbg]
    exact subset_trans (Finset.subset_insert p visited) ih
  | case4 visited mask p rest hp hbg ih =>
    rw [bfsRun]; simp only [dif_neg hp, dif_neg hbg]
    exact subset_trans (Finset.subset_insert p visited) ih

/-- Every cell in the queue is visited by the time the flood fill ends. -/
theorem bfsRun_queue_visited {procH procW : ℕ} (bg : Fin procH × Fin procW → Bool)
    (visited mask : Finset (Fin procH × Fin procW))
    (queue : List (Fin procH × Fin procW)) :
    ∀ x ∈ queue, x ∈ (bfsRun bg visited mask queue).1 := by
  induction visited, mask, queue using bfsRun.induct bg with
  | case1 visited mask => simp
  | case2 visited mask p rest hp ih =>
    intro x hx
    rw [bfsRun]; simp only [dif_pos hp]
    rcases List.mem_cons.mp hx with hx | hx
    · subst hx; exact bfsRun_visited_subset bg visited mask rest hp
    · exact ih x hx
  | case3 visited mask p rest hp hbg ih =>
    intro x hx
    rw [bfsRun]; simp only [dif_neg hp, dif_pos hbg]
    rcases List.mem_cons.mp hx with hx | hx
    · subst hx
      exact bfsRun_visited_subset bg _ _ _ (Finset.mem_insert_self x visited)
    · exact ih x (List.mem_append_left _ hx)
  | case4 visited mask p rest hp hbg ih =>
    intro x hx
    rw [bfsRun]; simp only [dif_neg hp, dif_neg hbg]
    rcases List.mem_cons.mp hx with hx | hx
    · subst hx
      exact bfsRun_visited_subset bg _ _ _ (Finset.mem_insert_self x visited)
    · exact ih x hx

/-- Invariant: the mask is exactly the background-colored part of the
visited set, and this carries over to the final state. -/
theorem bfsRun_mask_iff {procH procW : ℕ} (bg : Fin procH × Fin procW → Bool)
    (visited mask : Finset (Fin procH × Fin procW))
    (queue : List (Fin procH × Fin procW))
    (hA : ∀ x, x ∈ mask ↔ x ∈ visited ∧ bg x = true) :
    ∀ x, x ∈ (bfsRun bg visited mask queue).2 ↔
      x ∈ (bfsRun bg visited mask queue).1 ∧ bg x = true := by
  induction visited, mask, queue using bfsRun.induct bg with
  | case1 visited mask => simpa [bfsRun] using hA
  | case2 visited mask p rest hp ih =>
    rw [bfsRun]; simp only [dif_pos hp]; exact ih hA
  | case3 visited mask p rest hp hbg ih =>
    rw [bfsRun]; simp only [dif_neg hp, dif_pos hbg]
    refine ih ?_
    intro x
    by_cases hx : x = p
    · subst hx; simp [hbg]
    · simp only [Finset.mem_insert, hx, false_or]
      exact hA x
  | case4 visited mask p rest hp hbg ih =>
    rw [bfsRun]; simp only [dif_neg hp, dif_neg hbg]
    refine ih ?_
    intro x
    by_cases hx : x = p
    · subst hx
      simp only [Finset.mem_insert, true_or, true_and]
      constructor
      · intro hmem; exact absurd ((hA x).mp hmem).2 hbg
      · intro hmem; exact absurd hmem hbg
    · simp only [Finset.mem_insert, hx, false_or]
      exact hA x

/-- Invariant: every neighbor of a masked cell is visited or still
queued; at the end of the fill, it is visited. -/
theorem bfsRun_mask_nbrs {procH procW : ℕ} (bg : Fin procH × Fin procW → Bool)
    (visited mask : Finset (Fin procH × Fin procW))
    (queue : List (Fin procH × Fin procW))
    (hD : ∀ x ∈ mask, ∀ n ∈ neighborPushes x, n ∈ visited ∨ n ∈ queue) :
    ∀ x ∈ (bfsRun bg visited mask queue).2, ∀ n ∈ neighborPushes x,
      n ∈ (bfsRun bg visited mask queue).1 := by
  induction visited, mask, queue using bfsRun.induct bg with
  | case1 visited mask =>
    intro x hx n hn
    rw [bfsRun] at hx ⊢
    rcases hD x hx n hn with h | h
    · exact h
    · exact absurd h (List.not_mem_nil n)
  | case2 visited mask p rest hp ih =>
    rw [bfsRun]; simp only [dif_pos hp]
    refine ih ?_
    intro x hx n hn
    rcases hD x hx n hn with h | h
    · exact Or.inl h
    · rcases List.mem_cons.mp h with h | h
      · subst h; exact Or.inl hp
      · exact Or.inr h
  | case3 visited mask p rest hp hbg ih =>
    rw [bfsRun]; simp only [dif_neg hp, dif_pos hbg]
    refine ih ?_
    intro x hx n hn
    rcases Finset.mem_insert.mp hx with hx | hx
    · subst hx
      exact Or.inr (List.mem_append_right rest hn)
    · rcases hD x hx n hn with h | h
      · exact Or.inl (Finset.mem_insert_of_mem h)
      · rcases List.mem_cons.mp h with h | h
        · subst h; exact Or.inl (Finset.mem_insert_self n visited)
        · exact Or.inr (List.mem_append_left _ h)
  | case4 visited mask p rest hp hbg ih =>
    rw [bfsRun]; simp only [dif_neg hp, dif_neg hbg]
    refine ih ?_
    intro x hx n hn
    rcases hD x hx n hn with h | h
    · exact Or.inl (Finset.mem_insert_of_mem h)
    · rcases List.mem_cons.mp h with h | h
      · subst h; exact Or.inl (Finset.mem_insert_self n visited)
      · exact Or.inr h

/-- Soundness: under the invariants "every masked cell is reachable" and
"every queued cell is a corner or a neighbor of a masked cell", every
finally-masked cell is reachable. -/
theorem bfsRun_sound {procH procW : ℕ} (bg : Fin procH × Fin procW → Bool)
    (corners : List (Fin procH × Fin procW))
    (visited mask : Finset (Fin procH × Fin procW))
    (queue : List (Fin procH × Fin procW))
    (hB : ∀ x ∈ mask, BgReach bg corners x)
    (hC : ∀ x ∈ queue, x ∈ corners ∨ ∃ q ∈ mask, x ∈ neighborPushes q) :
    ∀ x ∈ (bfsRun bg visited mask queue).2, BgReach bg corners x := by
  induction visited, mask, queue using bfsRun.induct bg with
  | case1 visited mask =>
    intro x hx
    rw [bfsRun] at hx
    exact hB x hx
  | case2 visited mask p rest hp ih =>
    rw [bfsRun]; simp only [dif_pos hp]
    exact ih hB (fun x hx => hC x (List.mem_cons_of_mem p hx))
  | case3 visited mask p rest hp hbg ih =>
    rw [bfsRun]; simp only [dif_neg hp, dif_pos hbg]
    have hreach_p : BgReach bg corners p := by
      rcases hC p (List.mem_cons_self p rest) with h | ⟨q, hq, hnbr⟩
      · exact BgReach.corner p h hbg
      · exact BgReach.step p q (hB q hq) hnbr hbg
    refine ih ?_ ?_
    · intro x hx
      rcases Finset.mem_insert.mp hx with hx | hx
      · subst hx; exact hreach_p
      · exact hB x hx
    · intro x hx
      rcases List.mem_append.mp hx with hx | hx
      · rcases hC x (List.mem_cons_of_mem p hx) with h | ⟨q, hq, hnbr⟩
        · exact Or.inl h
        · exact Or.inr ⟨q, Finset.mem_insert_of_mem hq, hnbr⟩
      · exact Or.inr ⟨p, Finset.mem_insert_self p mask, hx⟩
  | case4 visited mask p rest hp hbg ih =>
    rw [bfsRun]; simp only [dif_neg hp, dif_neg hbg]
    exact ih hB (fun x hx => hC x (List.mem_cons_of_mem p hx))

/-- A reachable cell is background-colored. -/
theorem BgReach.bg_eq {procH procW : ℕ} {bg : Fin procH × Fin procW → Bool}
    {corners : List (Fin procH × Fin procW)} {p : Fin procH × Fin procW}
    (h : BgReach bg corners p) : bg p = true := by
  cases h with
  | corner _ _ hbg => exact hbg
  | step _ _ _ _ hbg => exact hbg

/-- The flood fill started on the seed queue masks exactly the
inductively-reachable cells. -/
theorem bfsRun_mem_iff {procH procW : ℕ} (bg : Fin procH × Fin procW → Bool)
    (corners : List (Fin procH × Fin procW)) (x : Fin procH × Fin procW) :
    x ∈ (bfsRun bg ∅ ∅ corners).2 ↔ BgReach bg corners x := by
  constructor
  · intro hx
    exact bfsRun_sound bg corners ∅ ∅ corners (by simp)
      (fun y hy => Or.inl hy) x hx
  · intro hreach
    have hA := bfsRun_mask_iff bg ∅ ∅ corners (by simp)
    have hD := bfsRun_mask_nbrs bg ∅ ∅ corners (by simp)
    induction hreach with
    | corner p hc hbg =>
      exact (hA p).mpr ⟨bfsRun_queue_visited bg ∅ ∅ corners p hc, hbg⟩
    | step p q hq hnbr hbg ihq =>
      have hqmem := ihq
      exact (hA p).mpr ⟨hD q hqmem p hnbr, hbg⟩

/-- A cell is a guarded push of `q` exactly when it is 4-connected
to `q`. -/
theorem mem_neighborPushes_iff {procH procW : ℕ}
    (q p : Fin procH × Fin procW) :
    p ∈ neighborPushes q ↔ adjacentCells q p := by
  have hq1 := q.1.isLt
  have hq2 := q.2.isLt
  have hp1 := p.1.isLt
  have hp2 := p.2.isLt
  unfold neighborPushes adjacentCells
  split_ifs with h1 h2 h3 h4 <;>
    simp [List.mem_append, Prod.ext_iff, Fin.ext_iff] <;>
    omega

/-- `BgReach` coincides with the claim's path formulation. -/
theorem bgReach_iff_bgPath {procH procW : ℕ} (bg : Fin procH × Fin procW → Bool)
    (corners : List (Fin procH × Fin procW)) (p : Fin procH × Fin procW) :
    BgReach bg corners p ↔ BgPath bg corners p := by
  constructor
  · intro h
    induction h with
    | corner p hc hbg =>
      exact ⟨[p], List.chain'_singleton p, ⟨p, hc, rfl⟩, rfl, by simpa using hbg⟩
    | step p q hq hnbr hbg ihq =>
      obtain ⟨path, hchain, ⟨c, hc, hhead⟩, hlast, hbgall⟩ := ihq
      refine ⟨path ++ [p], ?_, ⟨c, hc, ?_⟩, ?_, ?_⟩
      · refine List.Chain'.append hchain (List.chain'_singleton p) ?_
        intro x hx y hy
        simp only [List.head?_cons, Option.mem_def, Option.some.injEq] at hy
        subst hy
        rw [Option.mem_def, hlast] at hx
        cases hx
        exact (mem_neighborPushes_iff q p).mp hnbr
      · cases path with
        | nil => simp at hhead
        | cons a l => simpa using hhead
      · simp
      · intro x hx
        rcases List.mem_append.mp hx with hx | hx
        · exact hbgall x hx
        · simp only [List.mem_singleton] at hx; subst hx; exact hbg
  · rintro ⟨path, hchain, ⟨c, hc, hhead⟩, hlast, hbgall⟩
    cases path with
    | nil => simp at hhead
    | cons a l =>
      simp only [List.head?_cons, Option.some.injEq] at hhead
      have hstart : BgReach bg corners a :=
        BgReach.corner a (hhead ▸ hc) (hbgall a (List.mem_cons_self a l))
      clear hc hhead
      induction l generalizing a with
      | nil =>
        simp only [List.getLast?_singleton, Option.some.injEq] at hlast
        subst hlast
        exact hstart
      | cons b l' ih =>
        have hadj : adjacentCells a b := (List.chain'_cons.mp hchain).1
        have hb : BgReach bg corners b :=
          BgReach.step b a hstart ((mem_neighborPushes_iff a b).mpr hadj)
            (hbgall b (List.mem_cons_of_mem a (List.mem_cons_self b l')))
        refine ih b ?_ ?_ ?_ hb
        · exact (List.chain'_cons.mp hchain).2
        · simpa using hlast
        · intro x hx
          exact hbgall x (List.mem_cons_of_mem a hx)

/-- C2: with background removal requested at tolerance `t`, a buffer
pixel is in the background mask iff its Euclidean RGB distance to pure
white is `< 2t` (`isBgColor`) and it is reachable from one of the four
corner pixels by a 4-connected path consisting entirely of such
background-colored pixels.  In particular a background-colored region
with no such path to a corner (fully enclosed by foreground) is never
masked. -/
theorem backgroundMask_spec (procData : ℕ → ℕ) (tol : ℚ)
    (targetW targetH : ℕ) (hW : 0 < targetW) (hH : 0 < targetH)
    (p : Fin (targetH * 4) × Fin (targetW * 4)) :
    p ∈ backgroundMask procData tol targetW targetH ↔
      isBgColor procData tol ((p.1.val * (targetW * 4) + p.2.val) * 4) ∧
      BgPath (bgCell procData tol)
        (cornerSeeds (show 0 < targetH * 4 by omega)
          (show 0 < targetW * 4 by omega)) p := by
  have h4 : 0 < targetH * 4 ∧ 0 < targetW * 4 := by omega
  rw [backgroundMask, dif_pos h4, bfsRun_mem_iff]
  rw [bgReach_iff_bgPath]
  constructor
  · intro hpath
    obtain ⟨path, hchain, hhead, hlast, hbgall⟩ := hpath
    have hp_mem : p ∈ path := by
      obtain ⟨hne, heq⟩ :=
        List.mem_getLast?_eq_getLast (Option.mem_def.mpr hlast)
      rw [heq]
      exact List.getLast_mem hne
    have hbg := hbgall p hp_mem
    simp only [bgCell, decide_eq_true_eq] at hbg
    exact ⟨hbg, path, hchain, hhead, hlast, hbgall⟩
  · rintro ⟨hbg, hpath⟩
    exact hpath

/-- Witness for `backgroundMask_spec` on a concrete 4×4 all-white buffer. -/
theorem backgroundMask_spec_witness :
    (0 : ℕ) < 1 ∧
    (((0 : Fin (1 * 4)), (0 : Fin (1 * 4))) ∈
        backgroundMask (fun _ => 255) 30 1 1 ↔
      isBgColor (fun _ => 255) 30
        (((0 : Fin (1 * 4)).val * (1 * 4) + (0 : Fin (1 * 4)).val) * 4) ∧
      BgPath (bgCell (fun _ => 255) 30)
        (cornerSeeds (show 0 < 1 * 4 by omega) (show 0 < 1 * 4 by omega))
        ((0 : Fin (1 * 4)), (0 : Fin (1 * 4)))) :=
  ⟨by decide,
   backgroundMask_spec (fun _ => 255) 30 1 1 (by decide) (by decide) (0, 0)⟩

/-! ### Grid and block geometry -/

/-- `⌊(n : ℚ) * 4⌋` as a natural number is `4 n`. -/
theorem floor_natMulFour_toNat (n : ℕ) : (⌊(n : ℚ) * 4⌋).toNat = 4 * n := by
  have h : ((n : ℚ) * 4) = ((4 * n : ℕ) : ℚ) := by push_cast; ring
  rw [h, Int.floor_natCast, Int.toNat_natCast]

/-- `⌊((n : ℚ) + 1) * 4⌋` as a natural number is `4 n + 4`. -/
theorem floor_natSuccMulFour_toNat (n : ℕ) :
    (⌊((n : ℚ) + 1) * 4⌋).toNat = 4 * n + 4 := by
  have h : (((n : ℚ) + 1) * 4) = ((4 * n + 4 : ℕ) : ℚ) := by push_cast; ring
  rw [h, Int.floor_natCast, Int.toNat_natCast]

/-- For a nonzero target height, `blockH = procH / targetH = 4` exactly. -/
theorem blockH_eq_four (A : GenArgs) (h : A.targetH ≠ 0) : A.blockH = 4 := by
  unfold GenArgs.blockH GenArgs.procH
  have h' : (A.targetH : ℚ) ≠ 0 := Nat.cast_ne_zero.mpr h
  push_cast
  rw [mul_comm]
  exact mul_div_cancel_right₀ 4 h'

/-- For a nonzero target width, `blockW = procW / targetW = 4` exactly. -/
theorem blockW_eq_four (A : GenArgs) (h : A.targetW ≠ 0) : A.blockW = 4 := by
  unfold GenArgs.blockW GenArgs.procW
  have h' : (A.targetW : ℚ) ≠ 0 := Nat.cast_ne_zero.mpr h
  push_cast
  rw [mul_comm]
  exact mul_div_cancel_right₀ 4 h'

/-- The sampling block of an in-range cell is exactly the 4×4 pixel
square `[4r, 4r+4) × [4c, 4c+4)`. -/
theorem blockPixels_eq (A : GenArgs) (r c : ℕ) (hr : r < A.targetH)
    (hc : c < A.targetW) :
    blockPixels A r c = (List.range' (4 * r) 4).bind
      (fun y => (List.range' (4 * c) 4).map (fun x => (y, x))) := by
  have hbh := blockH_eq_four A (by omega)
  have hbw := blockW_eq_four A (by omega)
  simp only [blockPixels, hbh, hbw, floor_natMulFour_toNat,
    floor_natSuccMulFour_toNat]
  have h1 : min (4 * r + 4) A.procH = 4 * r + 4 := by
    unfold GenArgs.procH; omega
  have h2 : min (4 * c + 4) A.procW = 4 * c + 4 := by
    unfold GenArgs.procW; omega
  rw [h1, h2]
  have h3 : 4 * r + 4 - 4 * r = 4 := by omega
  have h4 : 4 * c + 4 - 4 * c = 4 := by omega
  rw [h3, h4]

/-- Every in-range sampling block contains exactly 16 pixels. -/
theorem blockPixels_length (A : GenArgs) (r c : ℕ) (hr : r < A.targetH)
    (hc : c < A.targetW) : (blockPixels A r c).length = 16 := by
  rw [blockPixels_eq A r c hr hc]
  simp [List.range'_succ]

/-- C3 counterexample: called directly with target dimensions 121×121 —
outside `[1, 120]` — the core produces a 121-row grid: it does not clamp
defensively. -/
theorem generateGrid_unclamped_counterexample :
    (generateGrid bigArgs Algorithm.nearest).length = 121 ∧ ¬ (121 ≤ 120) := by
  constructor
  · simp [generateGrid, bigArgs]
  · decide

/-- C3 (amended): the core uses the requested target dimensions as-is —
the returned grid always has exactly `targetH` rows of `targetW` cells,
whatever the requested dimensions; clamping into `[1, 120]` is performed
by the caller (`handleGenerate` in `App.tsx`, `Math.min(Math.max(1, v),
120)`), whose output always lies in `[1, 120]`. -/
theorem generateGrid_dims (A : GenArgs) (alg : Algorithm) :
    (generateGrid A alg).length = A.targetH ∧
    (∀ row ∈ generateGrid A alg, row.length = A.targetW) ∧
    (∀ v : ℤ, 1 ≤ (clampDim v).toNat ∧ (clampDim v).toNat ≤ 120) := by
  refine ⟨by simp [generateGrid], ?_, ?_⟩
  · intro row hrow
    simp only [generateGrid, List.mem_map] at hrow
    obtain ⟨r, _, rfl⟩ := hrow
    simp
  · intro v
    unfold clampDim
    omega

/-- C9 (amended): for positive target dimensions the block dimensions
are exactly 4, every sampling block contains exactly 16 pixels, and the
`count === 0` guard of the averaging pass is unreachable. -/
theorem blockGeometry_spec (A : GenArgs) (hW : 1 ≤ A.targetW)
    (hH : 1 ≤ A.targetH) :
    A.blockW = 4 ∧ A.blockH = 4 ∧
    ∀ r c : ℕ, r < A.targetH → c < A.targetW →
      (blockPixels A r c).length = 16 ∧ (blockPixels A r c).length ≠ 0 := by
  refine ⟨blockW_eq_four A (by omega), blockH_eq_four A (by omega), ?_⟩
  intro r c hr hc
  have := blockPixels_length A r c hr hc
  omega

/-- Witness for `blockGeometry_spec` at concrete 1×1 arguments. -/
theorem blockGeometry_spec_witness :
    1 ≤ transparentArgs.targetW ∧ 1 ≤ transparentArgs.targetH ∧
    (transparentArgs.blockW = 4 ∧ transparentArgs.blockH = 4 ∧
      ∀ r c : ℕ, r < transparentArgs.targetH → c < transparentArgs.targetW →
        (blockPixels transparentArgs r c).length = 16 ∧
        (blockPixels transparentArgs r c).length ≠ 0) :=
  ⟨by decide, by decide,
   blockGeometry_spec transparentArgs (by decide) (by decide)⟩

/-- C9 counterexample: on a fully transparent block (all 16 pixels have
alpha `< 10`) the `dominant_pooling` frequency map is empty although the
block is full, so the default-white representative — claimed unreachable
— is in fact selected. -/
theorem dominantFallback_reachable_counterexample :
    (blockPixels transparentArgs 0 0).length = 16 ∧
    (dominantScan transparentArgs 0 0).1 = [] ∧
    pickDominant (dominantScan transparentArgs 0 0).1 = (255, 255, 255) := by
  have hb := blockPixels_eq transparentArgs 0 0 (by decide) (by decide)
  have hscan : (dominantScan transparentArgs 0 0).1 = [] := by
    unfold dominantScan
    rw [hb]
    rfl
  refine ⟨?_, hscan, ?_⟩
  · rw [hb]
    rfl
  · rw [hscan]
    rfl

/-! ### The `average` strategy -/

/-- C4: under the `average` strategy, each channel of a cell's
pre-matching RGB value is the arithmetic mean over all pixels of its
sampling block of the brightness-adjusted values clamped to `[0, 255]`,
and the cell is flagged background iff background removal is active and
the masked-pixel count of the block divided by the total pixel count
exceeds 0.5. -/
theorem averageRawCell_spec (A : GenArgs) (r c : ℕ) (hr : r < A.targetH)
    (hc : c < A.targetW) :
    (averageRawCell A r c).r = ((blockPixels A r c).map (fun p =>
        min 255 (max 0 ((A.procData ((p.1 * A.procW + p.2) * 4) : ℚ) +
          A.brightness * 15)))).sum / ((blockPixels A r c).length : ℚ) ∧
    (averageRawCell A r c).g = ((blockPixels A r c).map (fun p =>
        min 255 (max 0 ((A.procData ((p.1 * A.procW + p.2) * 4 + 1) : ℚ) +
          A.brightness * 15)))).sum / ((blockPixels A r c).length : ℚ) ∧
    (averageRawCell A r c).b = ((blockPixels A r c).map (fun p =>
        min 255 (max 0 ((A.procData ((p.1 * A.procW + p.2) * 4 + 2) : ℚ) +
          A.brightness * 15)))).sum / ((blockPixels A r c).length : ℚ) ∧
    ((averageRawCell A r c).isBg = true ↔ A.removeBackground = true ∧
      (((blockPixels A r c).filter (fun p => A.maskBit p.1 p.2)).length : ℚ) /
        ((blockPixels A r c).length : ℚ) > 1 / 2) := by
  have hlen := blockPixels_length A r c hr hc
  have hcount : (if (blockPixels A r c).length = 0 then 1
      else (blockPixels A r c).length) = (blockPixels A r c).length := by
    rw [hlen]
    norm_num
  refine ⟨?_, ?_, ?_, ?_⟩
  · simp only [averageRawCell, GenArgs.adj, GenArgs.bOffset, hcount]
  · simp only [averageRawCell, GenArgs.adj, GenArgs.bOffset, hcount]
  · simp only [averageRawCell, GenArgs.adj, GenArgs.bOffset, hcount]
  · simp only [averageRawCell, hcount, Bool.and_eq_true, decide_eq_true_eq]
    cases hrb : A.removeBackground with
    | false => simp
    | true =>
      simp only [true_and, Bool.true_and]
      have h05 : (0.5 : ℚ) = 1 / 2 := by norm_num
      rw [h05]

/-- Witness for `averageRawCell_spec` at concrete 1×1 arguments. -/
theorem averageRawCell_spec_witness :
    (0 < transparentArgs.targetH ∧ 0 < transparentArgs.targetW) ∧
    ((averageRawCell transparentArgs 0 0).r =
        ((blockPixels transparentArgs 0 0).map (fun p =>
          min 255 (max 0 ((transparentArgs.procData
            ((p.1 * transparentArgs.procW + p.2) * 4) : ℚ) +
            transparentArgs.brightness * 15)))).sum /
          ((blockPixels transparentArgs 0 0).length : ℚ) ∧
      (averageRawCell transparentArgs 0 0).g =
        ((blockPixels transparentArgs 0 0).map (fun p =>
          min 255 (max 0 ((transparentArgs.procData
            ((p.1 * transparentArgs.procW + p.2) * 4 + 1) : ℚ) +
            transparentArgs.brightness * 15)))).sum /
          ((blockPixels transparentArgs 0 0).length : ℚ) ∧
      (averageRawCell transparentArgs 0 0).b =
        ((blockPixels transparentArgs 0 0).map (fun p =>
          min 255 (max 0 ((transparentArgs.procData
            ((p.1 * transparentArgs.procW + p.2) * 4 + 2) : ℚ) +
            transparentArgs.brightness * 15)))).sum /
          ((blockPixels transparentArgs 0 0).length : ℚ) ∧
      ((averageRawCell transparentArgs 0 0).isBg = true ↔
        transparentArgs.removeBackground = true ∧
        (((blockPixels transparentArgs 0 0).filter
            (fun p => transparentArgs.maskBit p.1 p.2)).length : ℚ) /
          ((blockPixels transparentArgs 0 0).length : ℚ) > 1 / 2)) :=
  ⟨⟨by decide, by decide⟩,
   averageRawCell_spec transparentArgs 0 0 (by decide) (by decide)⟩

/-! ### The `gradient_enhanced` strategy -/

/-- C5: under the `gradient_enhanced` strategy, a cell whose average
absolute difference against its existing 4-connected neighbors in the
average grid is below 15 is left exactly equal to its average value;
otherwise each channel becomes
`2·center − 0.1·(sum of existing neighbors) − 0.1·missing·center`,
clamped to `[0, 255]` (`missing` is the number of out-of-border
neighbors).  (For a 1×1 grid there are no neighbors; the empty sum
divided by zero is 0 < 15, matching the source's `avgDiff = 0` guard.) -/
theorem enhancedRawCell_spec (A : GenArgs) (r c : ℕ) :
    enhancedRawCell A r c =
      if ((existingNeighbors A r c).map (fun n =>
          |(averageRawCell A r c).r - n.r| + |(averageRawCell A r c).g - n.g| +
          |(averageRawCell A r c).b - n.b|)).sum /
          ((existingNeighbors A r c).length : ℚ) < 15 then
        averageRawCell A r c
      else
        { r := min 255 (max 0 (2 * (averageRawCell A r c).r -
            0.1 * ((existingNeighbors A r c).map RawCell.r).sum -
            0.1 * ((4 : ℚ) - ((existingNeighbors A r c).length : ℚ)) *
              (averageRawCell A r c).r)),
          g := min 255 (max 0 (2 * (averageRawCell A r c).g -
            0.1 * ((existingNeighbors A r c).map RawCell.g).sum -
            0.1 * ((4 : ℚ) - ((existingNeighbors A r c).length : ℚ)) *
              (averageRawCell A r c).g)),
          b := min 255 (max 0 (2 * (averageRawCell A r c).b -
            0.1 * ((existingNeighbors A r c).map RawCell.b).sum -
            0.1 * ((4 : ℚ) - ((existingNeighbors A r c).length : ℚ)) *
              (averageRawCell A r c).b)),
          isBg := (averageRawCell A r c).isBg } := by
  have havg : (if 0 < (existingNeighbors A r c).length then
      ((existingNeighbors A r c).map (fun n =>
        |(averageRawCell A r c).r - n.r| + |(averageRawCell A r c).g - n.g| +
        |(averageRawCell A r c).b - n.b|)).sum /
        ((existingNeighbors A r c).length : ℚ) else 0) =
      ((existingNeighbors A r c).map (fun n =>
        |(averageRawCell A r c).r - n.r| + |(averageRawCell A r c).g - n.g| +
        |(averageRawCell A r c).b - n.b|)).sum /
        ((existingNeighbors A r c).length : ℚ) := by
    by_cases h : 0 < (existingNeighbors A r c).length
    · rw [if_pos h]
    · rw [if_neg h]
      have hnil : existingNeighbors A r c = [] := by
        cases hl : existingNeighbors A r c with
        | nil => rfl
        | cons a l => rw [hl] at h; simp at h
      rw [hnil]
      simp
  rw [enhancedRawCell, havg]
  by_cases hcond : ((existingNeighbors A r c).map (fun n =>
      |(averageRawCell A r c).r - n.r| + |(averageRawCell A r c).g - n.g| +
      |(averageRawCell A r c).b - n.b|)).sum /
      ((existingNeighbors A r c).length : ℚ) < 15
  · rw [if_pos hcond, if_pos hcond]
  · rw [if_neg hcond, if_neg hcond]
    have hr' : (averageRawCell A r c).r * 2 +
        ((existingNeighbors A r c).map (fun n => n.r * (-0.1 : ℚ))).sum +
        (averageRawCell A r c).r *
          (((4 : ℚ) - ((existingNeighbors A r c).length : ℚ)) * (-0.1)) =
        2 * (averageRawCell A r c).r -
        0.1 * ((existingNeighbors A r c).map RawCell.r).sum -
        0.1 * ((4 : ℚ) - ((existingNeighbors A r c).length : ℚ)) *
          (averageRawCell A r c).r := by
      rw [List.sum_map_mul_right]
      ring
    have hg' : (averageRawCell A r c).g * 2 +
        ((existingNeighbors A r c).map (fun n => n.g * (-0.1 : ℚ))).sum +
        (averageRawCell A r c).g *
          (((4 : ℚ) - ((existingNeighbors A r c).length : ℚ)) * (-0.1)) =
        2 * (averageRawCell A r c).g -
        0.1 * ((existingNeighbors A r c).map RawCell.g).sum -
        0.1 * ((4 : ℚ) - ((existingNeighbors A r c).length : ℚ)) *
          (averageRawCell A r c).g := by
      rw [List.sum_map_mul_right]
      ring
    have hb' : (averageRawCell A r c).b * 2 +
        ((existingNeighbors A r c).map (fun n => n.b * (-0.1 : ℚ))).sum +
        (averageRawCell A r c).b *
          (((4 : ℚ) - ((existingNeighbors A r c).length : ℚ)) * (-0.1)) =
        2 * (averageRawCell A r c).b -
        0.1 * ((existingNeighbors A r c).map RawCell.b).sum -
        0.1 * ((4 : ℚ) - ((existingNeighbors A r c).length : ℚ)) *
          (averageRawCell A r c).b := by
      rw [List.sum_map_mul_right]
      ring
    rw [← hr', ← hg', ← hb']

/-- Membership in the palette, extracted from the scan specification and
shared by several theorems. -/
theorem findClosestColor_mem (palettes : PaletteKey → List ColorInfo)
    (key : PaletteKey) (r g b : ℚ) (h : palettes key ≠ []) :
    findClosestColor palettes r g b key ∈ palettes key := by
  have hspec := findClosestList_spec (rgbToLab r g b) (palettes key) h
  simpa only [findClosestColor] using hspec.1

/-- Minimality of the matched palette entry, extracted from the scan
specification and shared by several theorems. -/
theorem findClosestColor_min (palettes : PaletteKey → List ColorInfo)
    (key : PaletteKey) (r g b : ℚ) (h : palettes key ≠ []) :
    ∀ c ∈ palettes key, ¬ deltaE (rgbToLab r g b) c.lab <
      deltaE (rgbToLab r g b) (findClosestColor palettes r g b key).lab := by
  have hspec := findClosestList_spec (rgbToLab r g b) (palettes key) h
  simpa only [findClosestColor] using hspec.2.1

/-- On a palette whose entries are all non-external, resolution sets
`isExternal` to exactly the raw cell's background flag. -/
theorem resolveRawCell_isExternal (A : GenArgs) (raw : RawCell)
    (hpal : A.paletteOf A.paletteKey ≠ [])
    (hext : ∀ e ∈ A.paletteOf A.paletteKey, e.isExternal = false) :
    (resolveRawCell A raw).isExternal = raw.isBg := by
  simp only [resolveRawCell]
  cases hbg : raw.isBg with
  | true => simp
  | false =>
    simp only [Bool.false_eq_true, if_false]
    exact hext _ (findClosestColor_mem A.paletteOf A.paletteKey _ _ _ hpal)

/-- C6: the gradient-enhanced pass never changes background
classification — the raw enhanced cell's flag equals the pre-enhancement
average cell's flag in both branches, and the resolved grid cell's
`isExternal` equals that same flag. -/
theorem enhanced_preserves_isBg (A : GenArgs) (r c : ℕ)
    (hpal : A.paletteOf A.paletteKey ≠ [])
    (hext : ∀ e ∈ A.paletteOf A.paletteKey, e.isExternal = false) :
    (enhancedRawCell A r c).isBg = (averageRawCell A r c).isBg ∧
    (enhancedCell A r c).isExternal = (averageRawCell A r c).isBg := by
  have h1 : (enhancedRawCell A r c).isBg = (averageRawCell A r c).isBg := by
    rw [enhancedRawCell]
    split <;> split <;> rfl
  refine ⟨h1, ?_⟩
  rw [enhancedCell, resolveRawCell_isExternal A _ hpal hext, h1]

/-- Witness for `enhanced_preserves_isBg` at concrete 1×1 arguments. -/
theorem enhanced_preserves_isBg_witness :
    transparentArgs.paletteOf transparentArgs.paletteKey ≠ [] ∧
    (∀ e ∈ transparentArgs.paletteOf transparentArgs.paletteKey,
      e.isExternal = false) ∧
    ((enhancedRawCell transparentArgs 0 0).isBg =
        (averageRawCell transparentArgs 0 0).isBg ∧
      (enhancedCell transparentArgs 0 0).isExternal =
        (averageRawCell transparentArgs 0 0).isBg) := by
  have hpal : transparentArgs.paletteOf transparentArgs.paletteKey ≠ [] := by
    simp [transparentArgs, demoPalettes]
  have hext : ∀ e ∈ transparentArgs.paletteOf transparentArgs.paletteKey,
      e.isExternal = false := by
    intro e he
    simp only [transparentArgs, demoPalettes, List.mem_cons,
      List.not_mem_nil, or_false] at he
    rcases he with he | he <;> subst he <;> rfl
  exact ⟨hpal, hext, enhanced_preserves_isBg transparentArgs 0 0 hpal hext⟩

/-! ### Uniform input -/

/-- Sum of a function that is constant on a list. -/
theorem sum_map_const_of_eq {α : Type _} (l : List α) (f : α → ℚ) (q : ℚ)
    (h : ∀ a ∈ l, f a = q) : (l.map f).sum = (l.length : ℚ) * q := by
  induction l with
  | nil => simp
  | cons a t ih =>
    simp only [List.map_cons, List.sum_cons, List.length_cons,
      h a (List.mem_cons_self a t),
      ih (fun x hx => h x (List.mem_cons_of_mem a hx))]
    push_cast
    ring

/-- Bumping the key of a singleton bucket list increments its count. -/
theorem bumpBucket_single (k : ℤ × ℤ × ℤ) (v : ℚ × ℚ × ℚ) (m : ℕ) :
    bumpBucket k v [(k, v, m)] = [(k, v, m + 1)] := by
  simp [bumpBucket]

/-- Iterating a same-key bump from the empty bucket list yields one
bucket carrying the iteration count. -/
theorem bumpBucket_iterate (k : ℤ × ℤ × ℤ) (v : ℚ × ℚ × ℚ) (n : ℕ) :
    (bumpBucket k v)^[n + 1] [] = [(k, v, n + 1)] := by
  induction n with
  | zero => simp [bumpBucket]
  | succ n ih =>
    rw [Function.iterate_succ_apply', ih, bumpBucket_single]

/-- C7: for every algorithm, generating a 10×10 grid from a uniformly
colored, fully opaque buffer (default brightness, no background
removal) yields a grid in which every cell equals the palette entry
returned by `findClosestColor` on the uniform RGB — an entry no other
palette entry is strictly closer than — and no cell has
`isExternal = true`. -/
theorem generateGrid_uniform_spec (A : GenArgs) (ur ug ub : ℕ)
    (hpd : A.procData = uniformData ur ug ub)
    (hbr : A.brightness = 0) (hrb : A.removeBackground = false)
    (hW : A.targetW = 10) (hH : A.targetH = 10)
    (hur : ur ≤ 255) (hug : ug ≤ 255) (hub : ub ≤ 255)
    (hpal : A.paletteOf A.paletteKey ≠ [])
    (hext : ∀ e ∈ A.paletteOf A.paletteKey, e.isExternal = false)
    (alg : Algorithm) :
    ∀ row ∈ generateGrid A alg, ∀ cell ∈ row,
      cell = findClosestColor A.paletteOf ur ug ub A.paletteKey ∧
      cell.isExternal = false ∧
      ∀ e ∈ A.paletteOf A.paletteKey,
        ¬ deltaE (rgbToLab ur ug ub) e.lab <
          deltaE (rgbToLab ur ug ub) cell.lab := by
  -- channel reads are the uniform values
  have hadj0 : ∀ n : ℕ, A.adj (n * 4) = (ur : ℚ) := by
    intro n
    rw [GenArgs.adj, GenArgs.bOffset, hpd, hbr]
    rw [show uniformData ur ug ub (n * 4) = ur by
      unfold uniformData; rw [if_pos (by omega)]]
    rw [zero_mul, add_zero, max_eq_right (Nat.cast_nonneg ur)]
    exact min_eq_right (by exact_mod_cast hur)
  have hadj1 : ∀ n : ℕ, A.adj (n * 4 + 1) = (ug : ℚ) := by
    intro n
    rw [GenArgs.adj, GenArgs.bOffset, hpd, hbr]
    rw [show uniformData ur ug ub (n * 4 + 1) = ug by
      unfold uniformData; rw [if_neg (by omega), if_pos (by omega)]]
    rw [zero_mul, add_zero, max_eq_right (Nat.cast_nonneg ug)]
    exact min_eq_right (by exact_mod_cast hug)
  have hadj2 : ∀ n : ℕ, A.adj (n * 4 + 2) = (ub : ℚ) := by
    intro n
    rw [GenArgs.adj, GenArgs.bOffset, hpd, hbr]
    rw [show uniformData ur ug ub (n * 4 + 2) = ub by
      unfold uniformData; rw [if_neg (by omega), if_neg (by omega),
        if_pos (by omega)]]
    rw [zero_mul, add_zero, max_eq_right (Nat.cast_nonneg ub)]
    exact min_eq_right (by exact_mod_cast hub)
  have halpha : ∀ n : ℕ, A.procData (n * 4 + 3) = 255 := by
    intro n
    rw [hpd]
    unfold uniformData
    rw [if_neg (by omega), if_neg (by omega), if_neg (by omega)]
  -- the matched color and its properties
  have hcolor_ext :
      (findClosestColor A.paletteOf ur ug ub A.paletteKey).isExternal = false :=
    hext _ (findClosestColor_mem A.paletteOf A.paletteKey ur ug ub hpal)
  have hmin := findClosestColor_min A.paletteOf A.paletteKey ur ug ub hpal
  -- the average pass is uniform
  have havg : ∀ r' c', r' < A.targetH → c' < A.targetW →
      averageRawCell A r' c' =
        { r := (ur : ℚ), g := (ug : ℚ), b := (ub : ℚ), isBg := false } := by
    intro r' c' hr' hc'
    have hlen := blockPixels_length A r' c' hr' hc'
    have hsumR := sum_map_const_of_eq (blockPixels A r' c')
      (fun p => A.adj ((p.1 * A.procW + p.2) * 4)) (ur : ℚ)
      (fun p _ => hadj0 _)
    have hsumG := sum_map_const_of_eq (blockPixels A r' c')
      (fun p => A.adj ((p.1 * A.procW + p.2) * 4 + 1)) (ug : ℚ)
      (fun p _ => hadj1 _)
    have hsumB := sum_map_const_of_eq (blockPixels A r' c')
      (fun p => A.adj ((p.1 * A.procW + p.2) * 4 + 2)) (ub : ℚ)
      (fun p _ => hadj2 _)
    simp only [averageRawCell, hsumR, hsumG, hsumB, hlen, hrb,
      Bool.false_and, RawCell.mk.injEq]
    norm_num
  -- nearest pass
  have hnear : ∀ r' c' : ℕ, nearestCell A r' c' =
      findClosestColor A.paletteOf ur ug ub A.paletteKey := by
    intro r' c'
    simp only [nearestCell, hrb, Bool.false_and, Bool.false_eq_true,
      if_false, hadj0, hadj1, hadj2]
  -- average pass resolved
  have havgc : ∀ r' c', r' < A.targetH → c' < A.targetW →
      averageCell A r' c' =
        findClosestColor A.paletteOf ur ug ub A.paletteKey := by
    intro r' c' hr' hc'
    rw [averageCell, havg r' c' hr' hc', resolveRawCell]
    simp
  -- gradient pass
  have hnbrs : ∀ r' c', ∀ n ∈ existingNeighbors A r' c',
      n = { r := (ur : ℚ), g := (ug : ℚ), b := (ub : ℚ), isBg := false } := by
    intro r' c' n hn
    simp only [existingNeighbors, List.mem_filterMap] at hn
    obtain ⟨d, _, hfd⟩ := hn
    by_cases hcond : 0 ≤ (r' : ℤ) + d.1 ∧ (r' : ℤ) + d.1 < (A.targetH : ℤ) ∧
        0 ≤ (c' : ℤ) + d.2 ∧ (c' : ℤ) + d.2 < (A.targetW : ℤ)
    · rw [if_pos hcond, Option.some_inj] at hfd
      obtain ⟨h1, h2, h3, h4⟩ := hcond
      rw [← hfd]
      exact havg _ _ (by omega) (by omega)
    · rw [if_neg hcond] at hfd
      exact absurd hfd (by simp)
  have hgradraw : ∀ r' c', r' < A.targetH → c' < A.targetW →
      enhancedRawCell A r' c' =
        { r := (ur : ℚ), g := (ug : ℚ), b := (ub : ℚ), isBg := false } := by
    intro r' c' hr' hc'
    have hc0 := havg r' c' hr' hc'
    have hdiff : ((existingNeighbors A r' c').map (fun n =>
        |(averageRawCell A r' c').r - n.r| + |(averageRawCell A r' c').g - n.g| +
        |(averageRawCell A r' c').b - n.b|)).sum =
        ((existingNeighbors A r' c').length : ℚ) * 0 :=
      sum_map_const_of_eq _ _ 0 (fun n hn => by
        rw [hnbrs r' c' n hn, hc0]; simp)
    simp only [enhancedRawCell, hdiff, mul_zero, zero_div, ite_self]
    rw [if_pos (by norm_num : (0 : ℚ) < 15), hc0]
  have hgradc : ∀ r' c', r' < A.targetH → c' < A.targetW →
      enhancedCell A r' c' =
        findClosestColor A.paletteOf ur ug ub A.paletteKey := by
    intro r' c' hr' hc'
    rw [enhancedCell, hgradraw r' c' hr' hc', resolveRawCell]
    simp
  -- dominant pass
  have hstep : ∀ acc p, dominantStep A acc p =
      (bumpBucket (jsRound ((ur : ℚ) / 10) * 10, jsRound ((ug : ℚ) / 10) * 10,
          jsRound ((ub : ℚ) / 10) * 10) ((ur : ℚ), (ug : ℚ), (ub : ℚ)) acc.1,
        acc.2.1, acc.2.2 + 1) := by
    intro acc p
    simp only [dominantStep, halpha, hrb, Bool.false_and, Bool.false_eq_true,
      if_false, hadj0, hadj1, hadj2]
    rw [if_neg (by norm_num)]
  have hfold : ∀ (px : List (ℕ × ℕ))
      (bkt : List ((ℤ × ℤ × ℤ) × (ℚ × ℚ × ℚ) × ℕ)) (m t : ℕ),
      px.foldl (dominantStep A) (bkt, m, t) =
        ((bumpBucket (jsRound ((ur : ℚ) / 10) * 10, jsRound ((ug : ℚ) / 10) * 10,
            jsRound ((ub : ℚ) / 10) * 10)
            ((ur : ℚ), (ug : ℚ), (ub : ℚ)))^[px.length] bkt,
          m, t + px.length) := by
    intro px
    induction px with
    | nil => intro bkt m t; simp
    | cons p rest ih =>
      intro bkt m t
      rw [List.foldl_cons, hstep, ih]
      simp only [List.length_cons, Function.iterate_succ_apply, Prod.mk.injEq]
      exact ⟨trivial, trivial, by omega⟩
  have hscan : ∀ r' c', r' < A.targetH → c' < A.targetW →
      dominantScan A r' c' =
        ([((jsRound ((ur : ℚ) / 10) * 10, jsRound ((ug : ℚ) / 10) * 10,
            jsRound ((ub : ℚ) / 10) * 10),
          ((ur : ℚ), (ug : ℚ), (ub : ℚ)), 16)], 0, 16) := by
    intro r' c' hr' hc'
    rw [dominantScan, hfold, blockPixels_length A r' c' hr' hc']
    rw [show (16 : ℕ) = 15 + 1 from rfl, bumpBucket_iterate]
  have hdomc : ∀ r' c', r' < A.targetH → c' < A.targetW →
      dominantCell A r' c' =
        findClosestColor A.paletteOf ur ug ub A.paletteKey := by
    intro r' c' hr' hc'
    simp only [dominantCell, hscan r' c' hr' hc', hrb, Bool.false_and,
      Bool.false_eq_true, if_false, pickDominant, List.foldl_cons,
      List.foldl_nil]
    rw [if_pos (by norm_num)]
  -- assembly
  have hgoal : ∀ x : ColorInfo,
      x = findClosestColor A.paletteOf ur ug ub A.paletteKey →
      (x = findClosestColor A.paletteOf ur ug ub A.paletteKey ∧
        x.isExternal = false ∧
        ∀ e ∈ A.paletteOf A.paletteKey,
          ¬ deltaE (rgbToLab ur ug ub) e.lab <
            deltaE (rgbToLab ur ug ub) x.lab) := by
    intro x hx
    subst hx
    exact ⟨rfl, hcolor_ext, hmin⟩
  intro row hrow cell hcell
  simp only [generateGrid, List.mem_map, List.mem_range] at hrow
  obtain ⟨r, hr, rfl⟩ := hrow
  simp only [List.mem_map, List.mem_range] at hcell
  obtain ⟨c, hc, rfl⟩ := hcell
  cases alg with
  | average => exact hgoal _ (havgc r c hr hc)
  | nearest => exact hgoal _ (hnear r c)
  | gradientEnhanced => exact hgoal _ (hgradc r c hr hc)
  | dominantPooling => exact hgoal _ (hdomc r c hr hc)

/-- Witness for `generateGrid_uniform_spec` at concrete uniform
arguments with color `(10, 20, 30)`. -/
theorem generateGrid_uniform_spec_witness :
    (uniformArgs.procData = uniformData 10 20 30 ∧
      uniformArgs.brightness = 0 ∧ uniformArgs.removeBackground = false ∧
      uniformArgs.targetW = 10 ∧ uniformArgs.targetH = 10 ∧
      10 ≤ 255 ∧ 20 ≤ 255 ∧ 30 ≤ 255 ∧
      uniformArgs.paletteOf uniformArgs.paletteKey ≠ [] ∧
      (∀ e ∈ uniformArgs.paletteOf uniformArgs.paletteKey,
        e.isExternal = false)) ∧
    ∀ row ∈ generateGrid uniformArgs Algorithm.average, ∀ cell ∈ row,
      cell = findClosestColor uniformArgs.paletteOf 10 20 30
        uniformArgs.paletteKey ∧
      cell.isExternal = false ∧
      ∀ e ∈ uniformArgs.paletteOf uniformArgs.paletteKey,
        ¬ deltaE (rgbToLab 10 20 30) e.lab <
          deltaE (rgbToLab 10 20 30) cell.lab := by
  have hpal : uniformArgs.paletteOf uniformArgs.paletteKey ≠ [] := by
    simp [uniformArgs, demoPalettes]
  have hext : ∀ e ∈ uniformArgs.paletteOf uniformArgs.paletteKey,
      e.isExternal = false := by
    intro e he
    simp only [uniformArgs, demoPalettes, List.mem_cons,
      List.not_mem_nil, or_false] at he
    rcases he with he | he <;> subst he <;> rfl
  refine ⟨⟨rfl, rfl, rfl, rfl, rfl, by norm_num, by norm_num, by norm_num,
    hpal, hext⟩, ?_⟩
  have := generateGrid_uniform_spec uniformArgs 10 20 30 rfl rfl rfl rfl rfl
    (by norm_num) (by norm_num) (by norm_num) hpal hext Algorithm.average
  exact this

/-! ### Region merging -/

/-- `mapIdx` with a pointwise-identity function is the identity. -/
theorem mapIdx_id_of_eq {α : Type _} (l : List α) (f : ℕ → α → α)
    (h : ∀ i x, f i x = x) : l.mapIdx f = l := by
  rw [List.mapIdx_eq_enum_map]
  rw [show l.enum.map (Function.uncurry f) = l.enum.map Prod.snd from
    List.map_congr_left (fun p _ => h p.1 p.2)]
  exact List.enum_map_snd l

/-- A fold whose step fixes every accumulator returns the seed. -/
theorem foldl_fixed_of_eq {α β : Type _} (l : List β) (f : α → β → α) (a : α)
    (h : ∀ x p, f x p = x) : l.foldl f a = a := by
  induction l generalizing a with
  | nil => rfl
  | cons p rest ih => rw [List.foldl_cons, h, ih]

/-- If no cell is in the merged region, `mergeRegion` is the identity. -/
theorem mergeRegion_noop (g : List (List ColorInfo)) (sr sc : ℕ) (t : ℝ)
    (h : ∀ r c, ¬ MergeReach g sr sc t r c) : mergeRegion g sr sc t = g := by
  rw [mergeRegion]
  apply mapIdx_id_of_eq
  intro r row
  apply mapIdx_id_of_eq
  intro c cell
  rw [if_neg (h r c)]

/-- With a nonpositive threshold nothing is reachable, since `deltaE`
is nonnegative. -/
theorem not_mergeReach_of_nonpos (g : List (List ColorInfo)) (sr sc : ℕ)
    (t : ℝ) (ht : t ≤ 0) : ∀ r c, ¬ MergeReach g sr sc t r c := by
  intro r c h
  induction h with
  | seed seed hcell hext hd =>
    have := deltaE_nonneg seed.lab seed.lab
    linarith
  | step r c r' c' seed cell hreach hadj hseed hcell hext hd ih => exact ih

/-- With a background-flagged seed nothing is reachable. -/
theorem not_mergeReach_of_bgSeed (g : List (List ColorInfo)) (sr sc : ℕ)
    (t : ℝ) (seed : ColorInfo) (hseed : gridCell? g sr sc = some seed)
    (hbg : seed.isExternal = true) : ∀ r c, ¬ MergeReach g sr sc t r c := by
  intro r c h
  induction h with
  | seed s hc hext hd =>
    rw [hseed, Option.some_inj] at hc
    rw [← hc] at hext
    rw [hext] at hbg
    exact Bool.false_ne_true hbg
  | step r c r' c' s cell hreach hadj hs hcell hext hd ih => exact ih

/-- C8: `autoMerge` at threshold 0 is the identity, and more generally
any merge request with threshold `≤ 0` or seeded on a background cell
is a no-op returning the grid unchanged. -/
theorem autoMerge_zero_spec (g : List (List ColorInfo)) :
    autoMerge g 0 = g ∧
    (∀ sr sc : ℕ, ∀ t : ℝ, t ≤ 0 → mergeRegion g sr sc t = g) ∧
    (∀ sr sc : ℕ, ∀ t : ℝ, ∀ seed : ColorInfo,
      gridCell? g sr sc = some seed → seed.isExternal = true →
      mergeRegion g sr sc t = g) := by
  have hmerge : ∀ (g' : List (List ColorInfo)) (sr sc : ℕ) (t : ℝ), t ≤ 0 →
      mergeRegion g' sr sc t = g' := fun g' sr sc t ht =>
    mergeRegion_noop g' sr sc t (not_mergeReach_of_nonpos g' sr sc t ht)
  refine ⟨?_, fun sr sc t ht => hmerge g sr sc t ht, ?_⟩
  · rw [autoMerge]
    exact foldl_fixed_of_eq _ _ _ (fun x p => hmerge x p.1 p.2 0 le_rfl)
  · intro sr sc t seed hseed hbg
    exact mergeRegion_noop g sr sc t
      (not_mergeReach_of_bgSeed g sr sc t seed hseed hbg)

/-! ### Palette parsing -/

/-- A list of length six is an explicit six-element list. -/
theorem list_eq_six_of_length {α : Type _} (l : List α) (h : l.length = 6) :
    ∃ c1 c2 c3 c4 c5 c6, l = [c1, c2, c3, c4, c5, c6] := by
  rcases l with _ | ⟨c1, _ | ⟨c2, _ | ⟨c3, _ | ⟨c4, _ | ⟨c5, _ | ⟨c6, _ | ⟨c7, l⟩⟩⟩⟩⟩⟩⟩ <;>
    simp at h
  exact ⟨c1, c2, c3, c4, c5, c6, rfl⟩

/-- A hex field of the right shape (`#` + 6 characters) containing a
non-hex-digit character fails the regex of `hexToRgb` and falls back to
black. -/
theorem hexToRgb_of_badDigit (hex : String) (h1 : jsStartsWithHash hex)
    (h2 : hex.length = 7)
    (h3 : ∃ ch ∈ hex.toList.drop 1, isHexDigit ch = false) :
    hexToRgb hex = (0, 0, 0) := by
  have hdata : (hex.drop 1).toList = hex.toList.drop 1 :=
    String.data_drop hex 1
  have hlen : (hex.toList.drop 1).length = 6 := by
    rw [List.length_drop]
    have h2' : hex.toList.length = 7 := h2
    omega
  obtain ⟨c1, c2, c3, c4, c5, c6, hl⟩ := list_eq_six_of_length _ hlen
  obtain ⟨ch, hmem, hch⟩ := h3
  rw [hl] at hmem
  simp only [hexToRgb, if_pos h1, hdata, hl]
  rw [if_neg]
  intro hall
  have := List.all_eq_true.mp hall ch hmem
  rw [hch] at this
  exact Bool.false_ne_true this

/-- `rgbToLab` maps black to Lab `(0, 0, 0)` exactly. -/
theorem rgbToLab_black : rgbToLab 0 0 0 = (0, 0, 0) := by
  have h0 : srgbChannel (((0 : ℚ) : ℝ) / 255) = 0 := by
    rw [srgbChannel, if_neg (by norm_num)]
    norm_num
  have hf : labF 0 = 16 / 116 := by
    rw [labF, if_neg (by norm_num)]
    norm_num
  rw [rgbToLab, h0]
  norm_num [hf, Prod.mk.injEq]

/-- C10: a palette source row whose trimmed hex field starts with `#`
and has length exactly 7 but contains a non-hex-digit character after
the `#` is not skipped: every entry it contributes has rgb `(0, 0, 0)`
(the `hexToRgb` fallback) and the Lab value of black, and a brand with a
nonempty code does receive such an entry. -/
theorem parseRow_badHex_spec (parts : List String) (brandIdx : ℕ)
    (h1 : jsStartsWithHash (jsTrim (parts.headD "")))
    (h2 : (jsTrim (parts.headD "")).length = 7)
    (h3 : ∃ ch ∈ (jsTrim (parts.headD "")).toList.drop 1,
      isHexDigit ch = false) :
    (∀ e : ColorInfo, parseRow parts brandIdx = some e →
      e.rgb = (0, 0, 0) ∧ e.lab = rgbToLab 0 0 0) ∧
    (∀ code : String, (parts.get? brandIdx).map jsTrim = some code →
      code ≠ "" → parseRow parts brandIdx = some (blackEntry code)) := by
  have hrgb := hexToRgb_of_badDigit _ h1 h2 h3
  have hcond : jsStartsWithHash (jsTrim (parts.headD "")) = true ∧
      (jsTrim (parts.headD "")).length = 7 := ⟨h1, h2⟩
  constructor
  · intro e he
    simp only [parseRow, if_pos hcond, hrgb] at he
    cases hcode : (parts.get? brandIdx).map jsTrim with
    | none =>
      rw [hcode] at he
      exact absurd he (by simp)
    | some code =>
      rw [hcode] at he
      by_cases hne : code = ""
      · simp [hne] at he
      · simp only [ne_eq, hne, not_false_eq_true, if_true,
          Option.some.injEq] at he
        rw [← he]
        norm_num
  · intro code hcode hne
    simp only [parseRow, if_pos hcond, hrgb, hcode]
    simp only [ne_eq, hne, not_false_eq_true, if_true, Option.some.injEq,
      blackEntry]
    norm_num [ColorInfo.mk.injEq]

/-- Witness for `parseRow_badHex_spec` on the concrete row
`#zzzzzz,A1`. -/
theorem parseRow_badHex_spec_witness :
    (jsStartsWithHash (jsTrim ((["#zzzzzz", "A1"] : List String).headD "")) ∧
      (jsTrim ((["#zzzzzz", "A1"] : List String).headD "")).length = 7 ∧
      ∃ ch ∈ (jsTrim ((["#zzzzzz", "A1"] : List String).headD "")).toList.drop 1,
        isHexDigit ch = false) ∧
    ((∀ e : ColorInfo, parseRow ["#zzzzzz", "A1"] 1 = some e →
        e.rgb = (0, 0, 0) ∧ e.lab = rgbToLab 0 0 0) ∧
      (∀ code : String,
        ((["#zzzzzz", "A1"] : List String).get? 1).map jsTrim = some code →
        code ≠ "" → parseRow ["#zzzzzz", "A1"] 1 = some (blackEntry code))) :=
  ⟨⟨by decide, by decide, ⟨'z', by decide, by decide⟩⟩,
   parseRow_badHex_spec ["#zzzzzz", "A1"] 1 (by decide) (by decide)
     ⟨'z', by decide, by decide⟩⟩

end DouPinPin
